import Mathlib

/-!
Verification of the `langbook-sdb-dump` decoder (Rust sources
`src/huffman.rs`, `src/sdb.rs`, `src/file_utils.rs`, `src/main.rs`).

Modelling conventions:
* `InputBitStream` delivers the bits of each input byte LSB-first; we model
  the resulting bit sequence directly as a `List Bool`.  Raw byte access
  (used only by the magic preamble) is modelled as a `List Nat` of bytes.
* Rust `u32`/`usize` values are modelled as `Nat`, `i32` as `Int`.  Where a
  Rust arithmetic operation can overflow/underflow (a panic in debug
  builds) the model returns an explicit error (`checked_sub`,
  `usize_from_i32`, `arithUnderflow`).  Where an underflowing subtraction
  is provably guarded by the surrounding code we use `Nat` saturating
  subtraction and note the guard in a comment.
* Rust panics (`panic!`, `unwrap`, slice indexing) are modelled as errors.
* Unbounded `loop`/`while` constructs take an explicit fuel argument; fuel
  exhaustion is the distinguished error `fuelExhausted`, standing for
  divergence.
-/

/-- Errors of the decoder.  The Rust code carries a `ReadError { message }`
string; each distinct message/panic becomes one constructor here. -/
inductive ReadError where
  /-- "Unexpected end of file" -/
  | unexpectedEndOfFile
  /-- "Unexpected character 0x{found:X}, expectation was 0x{expected:X}" -/
  | unexpectedCharacter (found expected : Nat)
  /-- "Invalid symbol" -/
  | invalidSymbol
  /-- "Invalid number of bits" -/
  | invalidNumberOfBits
  /-- panic "Invalid range" in the ranged-table constructors -/
  | invalidRange
  /-- panic "Invalid language code" in `LanguageCode::new` -/
  | invalidLanguageCode
  /-- panic of a failed `try_from`/`unwrap` conversion or slice index -/
  | valueOutOfRange
  /-- panic of an underflowing unsigned subtraction (debug semantics) -/
  | arithUnderflow
  /-- "Unable to convert char" -/
  | unableToConvertChar
  /-- model artifact: a diverging loop was cut off -/
  | fuelExhausted
deriving DecidableEq, Repr

/-- The `HuffmanTable<T>` trait: `symbols_with_bits` and `get_symbol`. -/
structure HuffmanTable (S : Type) where
  symbols_with_bits : Nat → Nat
  get_symbol : Nat → Nat → Except ReadError S

/-- `InputBitStream::read_boolean`: pops the next bit of the stream
(refills from the byte source in Rust; end of input is an error). -/
def read_boolean : List Bool → Except ReadError (Bool × List Bool)
  | [] => .error .unexpectedEndOfFile
  | b :: rest => .ok (b, rest)

/-- The `loop` inside `InputBitStream::read_symbol` (huffman.rs:36-51),
state `(value, base, bits)`, one fuel unit per iteration. -/
def read_symbol_loop (t : HuffmanTable S) (value base bits : Nat) :
    Nat → List Bool → Except ReadError (S × List Bool)
  | 0, _ => .error .fuelExhausted
  | fuel + 1, bs => do
    let (b, bs) ← read_boolean bs
    let value := if b then (value <<< 1) + 1 else value <<< 1
    let base := base <<< 1
    let level_length := t.symbols_with_bits bits
    let level_index := value - base
    if level_index < level_length then do
      let s ← t.get_symbol bits level_index
      pure (s, bs)
    else
      read_symbol_loop t value (base + level_length) (bits + 1) fuel bs

/-- `InputBitStream::read_symbol` (huffman.rs:27-53). -/
def read_symbol (t : HuffmanTable S) (fuel : Nat) (bs : List Bool) :
    Except ReadError (S × List Bool) :=
  if t.symbols_with_bits 0 > 0 then do
    let s ← t.get_symbol 0 0
    pure (s, bs)
  else
    read_symbol_loop t 0 0 1 fuel bs

/-- Modelled from the spec: the loop of the canonical decoding algorithm as
the spec words it ("shift `value` left by one, read a bit, OR into
`value`; shift `base` left by one; let `level = symbols_at(bits)`; let
`local = value − base`; if `local < level`, emit `symbol_at(bits, local)`
and stop, else `base += level; bits += 1`"). -/
def read_symbol_spec_loop (t : HuffmanTable S) (value base bits : Nat) :
    Nat → List Bool → Except ReadError (S × List Bool)
  | 0, _ => .error .fuelExhausted
  | fuel + 1, bs => do
    let (b, bs) ← read_boolean bs
    let value := (value <<< 1) ||| (if b then 1 else 0)
    let base := base <<< 1
    let level := t.symbols_with_bits bits
    let lcl := value - base
    if lcl < level then do
      let s ← t.get_symbol bits lcl
      pure (s, bs)
    else
      read_symbol_spec_loop t value (base + level) (bits + 1) fuel bs

/-- Modelled from the spec: "If `symbols_at(0) > 0`, emit `symbol_at(0,0)`
without consuming bits.  Otherwise maintain `value=0`, `base=0`,
`bits=1`" and run the loop above. -/
def read_symbol_spec (t : HuffmanTable S) (fuel : Nat) (bs : List Bool) :
    Except ReadError (S × List Bool) :=
  if t.symbols_with_bits 0 > 0 then do
    let s ← t.get_symbol 0 0
    pure (s, bs)
  else
    read_symbol_spec_loop t 0 0 1 fuel bs

lemma exceptOkBind {E α β : Type} (a : α) (f : α → Except E β) :
    (Except.ok a >>= f : Except E β) = f a := rfl

lemma mul_two_lor_one (v : Nat) : v * 2 ||| 1 = v * 2 + 1 := by
  apply Nat.eq_of_testBit_eq
  intro i
  rw [Nat.testBit_lor]
  cases i with
  | zero => simp [Nat.testBit_zero]; omega
  | succ i =>
    have h2 : (v * 2 + 1) / 2 = v := by omega
    simp [Nat.testBit_succ, Nat.mul_div_cancel, h2]

lemma shiftLeft_one_lor_bit (v : Nat) (b : Bool) :
    (v <<< 1) ||| (if b then 1 else 0) =
      if b then (v <<< 1) + 1 else v <<< 1 := by
  cases b <;> simp [Nat.shiftLeft_eq, mul_two_lor_one]

lemma read_symbol_loop_eq_spec_loop (t : HuffmanTable S)
    (value base bits fuel : Nat) (bs : List Bool) :
    read_symbol_loop t value base bits fuel bs =
      read_symbol_spec_loop t value base bits fuel bs := by
  induction fuel generalizing value base bits bs with
  | zero => rfl
  | succ fuel ih =>
    simp only [read_symbol_loop, read_symbol_spec_loop,
      shiftLeft_one_lor_bit]
    cases bs with
    | nil => rfl
    | cons b rest =>
      simp only [read_boolean, exceptOkBind]
      split <;> simp [ih]

/-- C1: `InputBitStream::read_symbol` implements the canonical decoding
algorithm exactly as the spec states it: the source function and the
function transcribed from the spec's words agree on every table, fuel
bound and bit stream. -/
theorem read_symbol_follows_spec (S : Type) (t : HuffmanTable S)
    (fuel : Nat) (bs : List Bool) :
    read_symbol t fuel bs = read_symbol_spec t fuel bs := by
  unfold read_symbol read_symbol_spec
  split
  · rfl
  · exact read_symbol_loop_eq_spec_loop t 0 0 1 fuel bs

/-! ## Huffman table implementations -/

/-- `NaturalNumberHuffmanTable::symbols_with_bits` (huffman.rs:146-153).
`NaturalUsizeHuffmanTable` (huffman.rs:184-192) is textually identical
(usize instead of u32), so over `Nat` both are this one function. -/
def natural_symbols_with_bits (alignment bits : Nat) : Nat :=
  if bits > 0 ∧ bits % alignment = 0 then
    1 <<< ((bits / alignment) * (alignment - 1))
  else
    0

/-- The `while exp > 0 { base += 1 << (exp * (alignment - 1)); exp -= 1 }`
loop of `NaturalNumberHuffmanTable::get_symbol` (huffman.rs:162-165). -/
def natural_base_loop (alignment : Nat) : Nat → Nat → Nat
  | 0, base => base
  | exp + 1, base => natural_base_loop alignment exp (base + (1 <<< ((exp + 1) * (alignment - 1))))

/-- `NaturalNumberHuffmanTable::get_symbol` (huffman.rs:155-169); also
`NaturalUsizeHuffmanTable::get_symbol` (huffman.rs:194-208). -/
def natural_get_symbol (alignment bits index : Nat) : Except ReadError Nat :=
  if bits = 0 ∨ bits % alignment ≠ 0 then
    .error .invalidSymbol
  else
    .ok (natural_base_loop alignment ((bits - 1) / alignment) 0 + index)

/-- `NaturalNumberHuffmanTable::create_with_alignment` packaged as a
`HuffmanTable` value (also covers `NaturalUsizeHuffmanTable`). -/
def naturalNumberHuffmanTable (alignment : Nat) : HuffmanTable Nat :=
  ⟨natural_symbols_with_bits alignment, natural_get_symbol alignment⟩

/-- The positive-segment base loop of
`IntegerNumberHuffmanTable::get_symbol` (huffman.rs:245-249):
`while exp > 0 { base += 1 << exp; exp -= segment_alignment }`.  The Rust
`exp` is a `u32`; when `0 < exp < segment_alignment` the decrement
underflows (a debug-build panic), modelled as `arithUnderflow`; a zero
`segment_alignment` loops forever, so the loop takes fuel. -/
def integer_pos_loop (seg : Nat) : Nat → Nat → Int → Except ReadError Int
  | 0, _, _ => .error .fuelExhausted
  | _ + 1, 0, base => .ok base
  | fuel + 1, exp + 1, base =>
    let base := base + (1 <<< (exp + 1) : Nat)
    if exp + 1 < seg then .error .arithUnderflow
    else integer_pos_loop seg fuel (exp + 1 - seg) base

/-- The negative-segment base loop of
`IntegerNumberHuffmanTable::get_symbol` (huffman.rs:256-260):
`while exp > 0 { base -= 1 << exp; exp -= segment_alignment }`, same
underflow/fuel treatment as `integer_pos_loop`. -/
def integer_neg_loop (seg : Nat) : Nat → Nat → Int → Except ReadError Int
  | 0, _, _ => .error .fuelExhausted
  | _ + 1, 0, base => .ok base
  | fuel + 1, exp + 1, base =>
    let base := base - (1 <<< (exp + 1) : Nat)
    if exp + 1 < seg then .error .arithUnderflow
    else integer_neg_loop seg fuel (exp + 1 - seg) base

/-- `IntegerNumberHuffmanTable::get_symbol` (huffman.rs:233-265).  The two
initial `multiplier * segment_alignment - 1` / `(bits / alignment) *
segment_alignment - 1` u32 subtractions underflow when the product is 0
(debug panic), modelled as `arithUnderflow`. -/
def integer_get_symbol (alignment bits index : Nat) : Except ReadError Int :=
  if bits = 0 ∨ bits % alignment ≠ 0 then
    .error .invalidSymbol
  else
    let symbols_per_segment := natural_symbols_with_bits alignment bits / 2
    let seg := alignment - 1
    if index < symbols_per_segment then
      let multiplier := (bits - 1) / alignment
      if multiplier > 0 then
        if multiplier * seg = 0 then .error .arithUnderflow
        else do
          let base ← integer_pos_loop seg (multiplier * seg) (multiplier * seg - 1) 0
          pure (base + index)
      else
        .ok (0 + (index : Int))
    else
      if (bits / alignment) * seg = 0 then .error .arithUnderflow
      else do
        let base ← integer_neg_loop seg ((bits / alignment) * seg) ((bits / alignment) * seg - 1) 0
        pure (base + ((index : Int) - symbols_per_segment))

/-- `IntegerNumberHuffmanTable::create_with_alignment` packaged as a
`HuffmanTable` value. -/
def integerNumberHuffmanTable (alignment : Nat) : HuffmanTable Int :=
  ⟨natural_symbols_with_bits alignment, integer_get_symbol alignment⟩

/-- The `while possibilities > (1 << max_bits) { max_bits += 1 }` loop of
`RangedIntegerHuffmanTable::new` (huffman.rs:283-285), with fuel (the
callers pass `fuel = possibilities`, which always suffices). -/
def find_max_bits (possibilities : Nat) : Nat → Nat → Nat
  | 0, k => k
  | fuel + 1, k => if possibilities > 1 <<< k then find_max_bits possibilities fuel (k + 1) else k

/-- `RangedIntegerHuffmanTable` (huffman.rs:268-273).
`RangedNaturalUsizeHuffmanTable` (huffman.rs:330-335) has the identical
fields and behaviour over `Nat`, so one structure models both. -/
structure RangedIntegerHuffmanTable where
  min : Nat
  max : Nat
  max_bits : Nat
  limit : Nat
deriving DecidableEq, Repr

/-- `RangedIntegerHuffmanTable::new` (huffman.rs:276-295); the
`panic!("Invalid range")` on `max < min` becomes the `invalidRange`
error.  `RangedNaturalUsizeHuffmanTable::new` (huffman.rs:338-357) is the
same computation. -/
def RangedIntegerHuffmanTable.new (min max : Nat) :
    Except ReadError RangedIntegerHuffmanTable :=
  if max < min then .error .invalidRange
  else
    let possibilities := max - min + 1
    let max_bits := find_max_bits possibilities possibilities 0
    let limit := (1 <<< max_bits) - possibilities
    .ok ⟨min, max, max_bits, limit⟩

/-- `RangedIntegerHuffmanTable::symbols_with_bits` (huffman.rs:305-315).
With `Nat` subtraction `max_bits - 1` saturates at 0 when `max_bits = 0`;
in Rust the test is then `bits == u32::MAX`, but in that case
`limit = 0 = symbols_with_bits u32::MAX`, so the two readings agree on
every observable value. -/
def RangedIntegerHuffmanTable.symbols_with_bits
    (t : RangedIntegerHuffmanTable) (bits : Nat) : Nat :=
  if bits = t.max_bits then t.max - t.min + 1 - t.limit
  else if bits = t.max_bits - 1 then t.limit
  else 0

/-- `RangedIntegerHuffmanTable::get_symbol` (huffman.rs:317-327). -/
def RangedIntegerHuffmanTable.get_symbol
    (t : RangedIntegerHuffmanTable) (bits index : Nat) : Except ReadError Nat :=
  if bits = t.max_bits then .ok (index + t.limit + t.min)
  else if bits = t.max_bits - 1 then .ok (index + t.min)
  else .error .invalidNumberOfBits

/-- The `HuffmanTable` view of a ranged table. -/
def RangedIntegerHuffmanTable.toTable (t : RangedIntegerHuffmanTable) :
    HuffmanTable Nat :=
  ⟨t.symbols_with_bits, t.get_symbol⟩

/-- `DefinedHuffmanTable` (huffman.rs:392-395). -/
structure DefinedHuffmanTable (S : Type) where
  level_indexes : List Nat
  symbols : List S
deriving DecidableEq, Repr

/-- `DefinedHuffmanTable::symbols_with_bits` (huffman.rs:398-414).  Rust
panics when `level_indexes[(bits-1)]` or `level_indexes[bits]` is out of
bounds; that can only be reached for `bits` beyond the last level of the
table, where a canonically complete table is never queried.  The model
returns 0 there (so `read_symbol` diverges instead of panicking; both are
non-success). -/
def DefinedHuffmanTable.symbols_with_bits
    (t : DefinedHuffmanTable S) (bits : Nat) : Nat :=
  let level_index := if bits = 0 then 0 else t.level_indexes.getD (bits - 1) 0
  let next_level_index :=
    if t.level_indexes.length = bits then t.symbols.length
    else t.level_indexes.getD bits 0
  next_level_index - level_index

/-- `DefinedHuffmanTable::get_symbol` (huffman.rs:416-425); the panic of
an out-of-bounds `symbols[offset + index]` becomes `valueOutOfRange`. -/
def DefinedHuffmanTable.get_symbol
    (t : DefinedHuffmanTable S) (bits index : Nat) : Except ReadError S :=
  let offset := if bits = 0 then 0 else t.level_indexes.getD (bits - 1) 0
  match t.symbols.get? (offset + index) with
  | some s => .ok s
  | none => .error .valueOutOfRange

/-- The `HuffmanTable` view of a defined table. -/
def DefinedHuffmanTable.toTable (t : DefinedHuffmanTable S) : HuffmanTable S :=
  ⟨t.symbols_with_bits, t.get_symbol⟩

/-! ## What a successful `read_symbol` can return -/

lemma exceptErrorBind {E α β : Type} (e : E) (f : α → Except E β) :
    (Except.error e >>= f : Except E β) = Except.error e := rfl

lemma read_symbol_loop_ok {S : Type} (t : HuffmanTable S) (fuel : Nat) :
    ∀ value base bits bs s rest,
    read_symbol_loop t value base bits fuel bs = .ok (s, rest) →
    ∃ b i, i < t.symbols_with_bits b ∧ t.get_symbol b i = .ok s := by
  induction fuel with
  | zero =>
    intro value base bits bs s rest h
    simp [read_symbol_loop] at h
  | succ fuel ih =>
    intro value base bits bs s rest h
    cases bs with
    | nil => simp [read_symbol_loop, read_boolean, exceptErrorBind] at h
    | cons b bs' =>
      simp only [read_symbol_loop, read_boolean, exceptOkBind] at h
      by_cases hlt : ((if b = true then (value <<< 1) + 1 else value <<< 1) - base <<< 1)
          < t.symbols_with_bits bits
      · rw [if_pos hlt] at h
        cases hg : t.get_symbol bits
            ((if b = true then (value <<< 1) + 1 else value <<< 1) - base <<< 1) with
        | error e =>
          rw [hg] at h
          exact absurd h (by simp [exceptErrorBind])
        | ok s' =>
          rw [hg] at h
          simp only [exceptOkBind, pure, Except.pure, Except.ok.injEq, Prod.mk.injEq] at h
          exact ⟨bits, _, hlt, h.1 ▸ hg⟩
      · rw [if_neg hlt] at h
        exact ih _ _ _ _ _ _ h

lemma read_symbol_ok {S : Type} (t : HuffmanTable S) (fuel : Nat)
    (bs : List Bool) (s : S) (rest : List Bool)
    (h : read_symbol t fuel bs = .ok (s, rest)) :
    ∃ b i, i < t.symbols_with_bits b ∧ t.get_symbol b i = .ok s := by
  unfold read_symbol at h
  split at h
  · rename_i hpos
    cases hg : t.get_symbol 0 0 with
    | error e => rw [hg] at h; exact absurd h (by simp [exceptErrorBind])
    | ok s' =>
      rw [hg] at h
      simp only [exceptOkBind, pure, Except.pure, Except.ok.injEq, Prod.mk.injEq] at h
      exact ⟨0, 0, hpos, h.1 ▸ hg⟩
  · exact read_symbol_loop_ok t fuel _ _ _ _ _ _ h

lemma read_symbol_loop_error {S : Type} (t : HuffmanTable S) (fuel : Nat) :
    ∀ value base bits bs r,
    read_symbol_loop t value base bits fuel bs = .error r →
    r = .fuelExhausted ∨ r = .unexpectedEndOfFile ∨
      ∃ b i, i < t.symbols_with_bits b ∧ t.get_symbol b i = .error r := by
  induction fuel with
  | zero =>
    intro value base bits bs r h
    simp only [read_symbol_loop, Except.error.injEq] at h
    exact Or.inl h.symm
  | succ fuel ih =>
    intro value base bits bs r h
    cases bs with
    | nil =>
      simp only [read_symbol_loop, read_boolean, exceptErrorBind, Except.error.injEq] at h
      exact Or.inr (Or.inl h.symm)
    | cons b bs' =>
      simp only [read_symbol_loop, read_boolean, exceptOkBind] at h
      by_cases hlt : ((if b = true then (value <<< 1) + 1 else value <<< 1) - base <<< 1)
          < t.symbols_with_bits bits
      · rw [if_pos hlt] at h
        cases hg : t.get_symbol bits
            ((if b = true then (value <<< 1) + 1 else value <<< 1) - base <<< 1) with
        | error e =>
          rw [hg] at h
          have he : e = r := by simpa [exceptErrorBind] using h
          exact Or.inr (Or.inr ⟨bits, _, hlt, he ▸ hg⟩)
        | ok s' =>
          rw [hg] at h
          exact absurd h (by simp [exceptOkBind, pure, Except.pure])
      · rw [if_neg hlt] at h
        exact ih _ _ _ _ _ h

lemma read_symbol_error {S : Type} (t : HuffmanTable S) (fuel : Nat)
    (bs : List Bool) (r : ReadError)
    (h : read_symbol t fuel bs = .error r) :
    r = .fuelExhausted ∨ r = .unexpectedEndOfFile ∨
      ∃ b i, i < t.symbols_with_bits b ∧ t.get_symbol b i = .error r := by
  unfold read_symbol at h
  split at h
  · rename_i hpos
    cases hg : t.get_symbol 0 0 with
    | error e =>
      rw [hg] at h
      have he : e = r := by simpa [exceptErrorBind] using h
      exact Or.inr (Or.inr ⟨0, 0, hpos, he ▸ hg⟩)
    | ok s' =>
      rw [hg] at h
      exact absurd h (by simp [exceptOkBind, pure, Except.pure])
  · exact read_symbol_loop_error t fuel _ _ _ _ _ h

/-! ## Ranged table: canonical shape -/

lemma one_shiftLeft_eq (n : Nat) : (1 <<< n) = 2 ^ n := by
  simp [Nat.shiftLeft_eq]

lemma find_max_bits_spec (p : Nat) :
    ∀ fuel k, p ≤ 2 ^ (k + fuel) →
    p ≤ 2 ^ find_max_bits p fuel k ∧ k ≤ find_max_bits p fuel k ∧
      (k < find_max_bits p fuel k → 2 ^ (find_max_bits p fuel k - 1) < p) := by
  intro fuel
  induction fuel with
  | zero =>
    intro k h
    rw [Nat.add_zero] at h
    exact ⟨by simpa [find_max_bits] using h, Nat.le_refl _,
      fun hk => by simp [find_max_bits] at hk⟩
  | succ fuel ih =>
    intro k h
    rw [find_max_bits]
    split
    · rename_i h1
      rw [one_shiftLeft_eq] at h1
      have h' : p ≤ 2 ^ (k + 1 + fuel) := by
        rw [show k + 1 + fuel = k + (fuel + 1) by omega]; exact h
      obtain ⟨c1, c2, c3⟩ := ih (k + 1) h'
      refine ⟨c1, Nat.le_trans (Nat.le_succ k) c2, fun hk => ?_⟩
      rcases Nat.lt_or_ge (k + 1) (find_max_bits p fuel (k + 1)) with h2 | h2
      · exact c3 h2
      · have he : find_max_bits p fuel (k + 1) = k + 1 := Nat.le_antisymm h2 c2
        rw [he]
        simpa using h1
    · rename_i h1
      rw [one_shiftLeft_eq] at h1
      exact ⟨by omega, Nat.le_refl _, fun hk => absurd hk (lt_irrefl k)⟩

lemma ranged_new_ok {min max : Nat} {t : RangedIntegerHuffmanTable}
    (h : RangedIntegerHuffmanTable.new min max = .ok t) :
    min ≤ max ∧
    t = ⟨min, max, find_max_bits (max - min + 1) (max - min + 1) 0,
          (1 <<< find_max_bits (max - min + 1) (max - min + 1) 0) - (max - min + 1)⟩ := by
  unfold RangedIntegerHuffmanTable.new at h
  split at h
  · exact absurd h (by simp)
  · rename_i hge
    refine ⟨by omega, ?_⟩
    simpa using h.symm

/-- The facts everything else uses about a constructed ranged table: the
fields, `P ≤ 2^max_bits`, the minimality of `max_bits`, and the value of
`limit` (`P` abbreviates `max - min + 1`). -/
lemma ranged_table_facts {min max : Nat} {t : RangedIntegerHuffmanTable}
    (h : RangedIntegerHuffmanTable.new min max = .ok t) :
    t.min = min ∧ t.max = max ∧ min ≤ max ∧
    (max - min + 1) ≤ 2 ^ t.max_bits ∧
    (∀ b, (max - min + 1) ≤ 2 ^ b → t.max_bits ≤ b) ∧
    t.limit = 2 ^ t.max_bits - (max - min + 1) := by
  obtain ⟨hle, ht⟩ := ranged_new_ok h
  subst ht
  dsimp only
  have hp : (max - min + 1) ≤ 2 ^ (0 + (max - min + 1)) := by
    simpa using Nat.le_of_lt (Nat.lt_two_pow (max - min + 1))
  obtain ⟨c1, _, c3⟩ := find_max_bits_spec (max - min + 1) (max - min + 1) 0 hp
  refine ⟨rfl, rfl, hle, c1, ?_, by rw [one_shiftLeft_eq]⟩
  intro b hb
  by_contra hbc
  push_neg at hbc
  have h0 : 0 < find_max_bits (max - min + 1) (max - min + 1) 0 := by omega
  have hc3 := c3 h0
  have hpw : (2 : Nat) ^ b ≤ 2 ^ (find_max_bits (max - min + 1) (max - min + 1) 0 - 1) :=
    Nat.pow_le_pow_right (by norm_num) (by omega)
  omega

lemma ranged_limit_lt {min max : Nat} {t : RangedIntegerHuffmanTable}
    (h : RangedIntegerHuffmanTable.new min max = .ok t) :
    t.limit < max - min + 1 := by
  obtain ⟨_, _, hle, hP, hmin, hlimit⟩ := ranged_table_facts h
  rcases Nat.eq_zero_or_pos t.max_bits with h0 | h0
  · rw [h0] at hP hlimit
    simp at hP hlimit
    omega
  · have h1 : ¬ ((max - min + 1) ≤ 2 ^ (t.max_bits - 1)) := by
      intro hc
      have := hmin _ hc
      omega
    push_neg at h1
    have h2 : 2 ^ (t.max_bits - 1 + 1) = 2 ^ (t.max_bits - 1) + 2 ^ (t.max_bits - 1) :=
      Nat.two_pow_succ _
    have h3 : t.max_bits - 1 + 1 = t.max_bits := by omega
    rw [h3] at h2
    omega

/-- A symbol produced through the declared support of a ranged table lies
in `[min, max]`. -/
lemma ranged_get_symbol_bounds {min max : Nat} {t : RangedIntegerHuffmanTable}
    (h : RangedIntegerHuffmanTable.new min max = .ok t)
    {b i : Nat} {s : Nat} (hi : i < t.symbols_with_bits b)
    (hg : t.get_symbol b i = .ok s) :
    min ≤ s ∧ s ≤ max := by
  obtain ⟨hmin, hmax, hle, hP, _, hlimit⟩ := ranged_table_facts h
  have hlim := ranged_limit_lt h
  unfold RangedIntegerHuffmanTable.symbols_with_bits at hi
  unfold RangedIntegerHuffmanTable.get_symbol at hg
  split at hi
  · rename_i hb
    rw [if_pos hb] at hg
    have hs : s = i + t.limit + min := by
      rw [hmin] at hg
      exact ((Except.ok.injEq _ _).mp hg).symm
    rw [hmin, hmax] at hi
    omega
  · split at hi
    · rename_i hb1 hb2
      rw [if_neg hb1, if_pos hb2] at hg
      have hs : s = i + min := by
        rw [hmin] at hg
        exact ((Except.ok.injEq _ _).mp hg).symm
      omega
    · omega

/-- Bounds on any symbol successfully decoded with a ranged table. -/
lemma read_symbol_ranged_bounds {min max : Nat} {t : RangedIntegerHuffmanTable}
    (h : RangedIntegerHuffmanTable.new min max = .ok t)
    {fuel : Nat} {bs rest : List Bool} {s : Nat}
    (hr : read_symbol t.toTable fuel bs = .ok (s, rest)) :
    min ≤ s ∧ s ≤ max := by
  obtain ⟨b, i, hi, hg⟩ := read_symbol_ok _ _ _ _ _ hr
  exact ranged_get_symbol_bounds h (b := b) (i := i) hi hg

/-- C2: a `RangedIntegerHuffmanTable` (equally a
`RangedNaturalUsizeHuffmanTable`) built from `min ≤ max` is the canonical
two-level code over `P = max - min + 1` symbols: `max_bits` is the
smallest `B` with `2^B ≥ P` (i.e. `⌈log₂ P⌉`), `limit = 2^B - P`, level
`B-1` holds the `limit` symbols `min + i`, level `B` the `P - limit`
symbols `min + limit + i`, every other level is empty, the decodable
symbols are exactly `{min..max}`, and construction fails when
`max < min`. -/
theorem ranged_table_canonical (min max : Nat) (t : RangedIntegerHuffmanTable)
    (hnew : RangedIntegerHuffmanTable.new min max = .ok t) :
    ((max - min + 1 ≤ 2 ^ t.max_bits ∧ ∀ b, max - min + 1 ≤ 2 ^ b → t.max_bits ≤ b) ∧
     t.max_bits = Nat.clog 2 (max - min + 1) ∧
     t.limit = 2 ^ t.max_bits - (max - min + 1)) ∧
    ((1 ≤ t.max_bits → t.symbols_with_bits (t.max_bits - 1) = t.limit) ∧
     t.symbols_with_bits t.max_bits = (max - min + 1) - t.limit ∧
     (∀ b, b ≠ t.max_bits → b + 1 ≠ t.max_bits → t.symbols_with_bits b = 0)) ∧
    ((1 ≤ t.max_bits → ∀ i, t.get_symbol (t.max_bits - 1) i = .ok (min + i)) ∧
     (∀ i, t.get_symbol t.max_bits i = .ok (min + t.limit + i)) ∧
     (∀ s, (∃ b i, i < t.symbols_with_bits b ∧ t.get_symbol b i = .ok s) ↔
        (min ≤ s ∧ s ≤ max))) ∧
    (∀ a b, b < a → RangedIntegerHuffmanTable.new a b = .error .invalidRange) := by
  obtain ⟨hmin, hmax, hle, hP, hminimal, hlimit⟩ := ranged_table_facts hnew
  have hlim := ranged_limit_lt hnew
  refine ⟨⟨⟨hP, hminimal⟩, ?_, hlimit⟩, ⟨?_, ?_, ?_⟩, ⟨?_, ?_, ?_⟩, ?_⟩
  · -- max_bits = clog
    have h1 : Nat.clog 2 (max - min + 1) ≤ t.max_bits :=
      (Nat.le_pow_iff_clog_le (by norm_num)).mp hP
    have h2 : t.max_bits ≤ Nat.clog 2 (max - min + 1) :=
      hminimal _ (Nat.le_pow_clog (by norm_num) _)
    omega
  · -- symbols at max_bits - 1
    intro h1
    unfold RangedIntegerHuffmanTable.symbols_with_bits
    rw [if_neg (by omega), if_pos rfl]
  · -- symbols at max_bits
    unfold RangedIntegerHuffmanTable.symbols_with_bits
    rw [if_pos rfl, hmin, hmax]
  · -- other levels empty
    intro b hb1 hb2
    unfold RangedIntegerHuffmanTable.symbols_with_bits
    rw [if_neg hb1, if_neg (by omega)]
  · -- get_symbol at max_bits - 1
    intro h1 i
    unfold RangedIntegerHuffmanTable.get_symbol
    rw [if_neg (by omega), if_pos rfl, hmin]
    simp [Nat.add_comm]
  · -- get_symbol at max_bits
    intro i
    unfold RangedIntegerHuffmanTable.get_symbol
    rw [if_pos rfl, hmin]
    simp only [Except.ok.injEq]
    omega
  · -- decodable symbols are exactly {min..max}
    intro s
    constructor
    · rintro ⟨b, i, hi, hg⟩
      exact ranged_get_symbol_bounds hnew hi hg
    · rintro ⟨hs1, hs2⟩
      by_cases hcase : s < min + t.limit
      · have hbpos : 1 ≤ t.max_bits := by
          by_contra h0
          have h0' : t.max_bits = 0 := by omega
          rw [h0'] at hlimit
          simp at hlimit
          omega
        refine ⟨t.max_bits - 1, s - min, ?_, ?_⟩
        · unfold RangedIntegerHuffmanTable.symbols_with_bits
          rw [if_neg (by omega), if_pos rfl]
          omega
        · unfold RangedIntegerHuffmanTable.get_symbol
          rw [if_neg (by omega), if_pos rfl, hmin]
          simp only [Except.ok.injEq]
          omega
      · refine ⟨t.max_bits, s - min - t.limit, ?_, ?_⟩
        · unfold RangedIntegerHuffmanTable.symbols_with_bits
          rw [if_pos rfl, hmin, hmax]
          omega
        · unfold RangedIntegerHuffmanTable.get_symbol
          rw [if_pos rfl, hmin]
          simp only [Except.ok.injEq]
          omega
  · -- construction fails on an empty range
    intro a b hba
    unfold RangedIntegerHuffmanTable.new
    rw [if_pos hba]

/-- Witness for C2 at `min = 3`, `max = 7` (so `P = 5`, `B = 3`,
`L = 3`). -/
theorem ranged_table_canonical_witness :
    ((7 - 3 + 1 ≤ 2 ^ (RangedIntegerHuffmanTable.mk 3 7 3 3).max_bits ∧
      ∀ b, 7 - 3 + 1 ≤ 2 ^ b → (RangedIntegerHuffmanTable.mk 3 7 3 3).max_bits ≤ b) ∧
     (RangedIntegerHuffmanTable.mk 3 7 3 3).max_bits = Nat.clog 2 (7 - 3 + 1) ∧
     (RangedIntegerHuffmanTable.mk 3 7 3 3).limit =
       2 ^ (RangedIntegerHuffmanTable.mk 3 7 3 3).max_bits - (7 - 3 + 1)) ∧
    ((1 ≤ (RangedIntegerHuffmanTable.mk 3 7 3 3).max_bits →
      (RangedIntegerHuffmanTable.mk 3 7 3 3).symbols_with_bits
        ((RangedIntegerHuffmanTable.mk 3 7 3 3).max_bits - 1) =
        (RangedIntegerHuffmanTable.mk 3 7 3 3).limit) ∧
     (RangedIntegerHuffmanTable.mk 3 7 3 3).symbols_with_bits
       (RangedIntegerHuffmanTable.mk 3 7 3 3).max_bits =
       (7 - 3 + 1) - (RangedIntegerHuffmanTable.mk 3 7 3 3).limit ∧
     (∀ b, b ≠ (RangedIntegerHuffmanTable.mk 3 7 3 3).max_bits →
       b + 1 ≠ (RangedIntegerHuffmanTable.mk 3 7 3 3).max_bits →
       (RangedIntegerHuffmanTable.mk 3 7 3 3).symbols_with_bits b = 0)) ∧
    ((1 ≤ (RangedIntegerHuffmanTable.mk 3 7 3 3).max_bits →
      ∀ i, (RangedIntegerHuffmanTable.mk 3 7 3 3).get_symbol
        ((RangedIntegerHuffmanTable.mk 3 7 3 3).max_bits - 1) i = .ok (3 + i)) ∧
     (∀ i, (RangedIntegerHuffmanTable.mk 3 7 3 3).get_symbol
        (RangedIntegerHuffmanTable.mk 3 7 3 3).max_bits i =
        .ok (3 + (RangedIntegerHuffmanTable.mk 3 7 3 3).limit + i)) ∧
     (∀ s, (∃ b i, i < (RangedIntegerHuffmanTable.mk 3 7 3 3).symbols_with_bits b ∧
        (RangedIntegerHuffmanTable.mk 3 7 3 3).get_symbol b i = .ok s) ↔
        (3 ≤ s ∧ s ≤ 7))) ∧
    (∀ a b, b < a → RangedIntegerHuffmanTable.new a b = .error .invalidRange) :=
  ranged_table_canonical 3 7 ⟨3, 7, 3, 3⟩ rfl

/-- The value accumulated by the `read_symbol` loop after consuming a list
of bits (most significant bit first). -/
def bits_value (value : Nat) : List Bool → Nat
  | [] => value
  | b :: rest => bits_value (if b then (value <<< 1) + 1 else value <<< 1) rest

lemma bits_value_lt (l : List Bool) :
    ∀ value, bits_value value l < (value + 1) * 2 ^ l.length := by
  induction l with
  | nil => intro value; simp [bits_value]
  | cons b rest ih =>
    intro value
    have h1 := ih (if b then (value <<< 1) + 1 else value <<< 1)
    have h2 : (if b then (value <<< 1) + 1 else value <<< 1) + 1 ≤ (value + 1) * 2 := by
      cases b <;> simp [Nat.shiftLeft_eq] <;> try omega
    calc bits_value value (b :: rest)
        = bits_value (if b then (value <<< 1) + 1 else value <<< 1) rest := rfl
      _ < ((if b then (value <<< 1) + 1 else value <<< 1) + 1) * 2 ^ rest.length := h1
      _ ≤ (value + 1) * 2 * 2 ^ rest.length :=
          Nat.mul_le_mul_right _ h2
      _ = (value + 1) * 2 ^ (b :: rest).length := by
          rw [List.length_cons, Nat.mul_assoc, ← Nat.pow_succ']

/-- Skipping `k` empty levels: while `symbols_with_bits` is 0 the loop
just shifts bits into `value` and keeps `base = 0`. -/
lemma read_symbol_loop_skip {S : Type} (t : HuffmanTable S) :
    ∀ (k fuel value bits : Nat) (bs : List Bool),
    (∀ j, bits ≤ j → j < bits + k → t.symbols_with_bits j = 0) →
    k ≤ bs.length → k ≤ fuel →
    read_symbol_loop t value 0 bits fuel bs =
      read_symbol_loop t (bits_value value (bs.take k)) 0 (bits + k) (fuel - k)
        (bs.drop k) := by
  intro k
  induction k with
  | zero => intro fuel value bits bs hz hlen hfuel; simp [bits_value]
  | succ k ih =>
    intro fuel value bits bs hz hlen hfuel
    cases bs with
    | nil => simp at hlen
    | cons b bs' =>
      cases fuel with
      | zero => omega
      | succ fuel =>
        have hstep : read_symbol_loop t value 0 bits (fuel + 1) (b :: bs') =
            read_symbol_loop t (if b then (value <<< 1) + 1 else value <<< 1)
              0 (bits + 1) fuel bs' := by
          simp only [read_symbol_loop, read_boolean, exceptOkBind]
          rw [hz bits (Nat.le_refl _) (by omega)]
          rw [if_neg (by omega)]
          norm_num [Nat.zero_shiftLeft]
        rw [hstep]
        have hz' : ∀ j, bits + 1 ≤ j → j < bits + 1 + k → t.symbols_with_bits j = 0 :=
          fun j h1 h2 => hz j (by omega) (by omega)
        rw [ih fuel _ (bits + 1) bs' hz' (by simpa using hlen) (by omega)]
        simp only [List.take_succ_cons, List.drop_succ_cons, bits_value]
        congr 1 <;> omega

/-- Shared helper: `max_bits` is `⌈log₂ P⌉`. -/
lemma ranged_max_bits_clog {min max : Nat} {t : RangedIntegerHuffmanTable}
    (h : RangedIntegerHuffmanTable.new min max = .ok t) :
    t.max_bits = Nat.clog 2 (max - min + 1) := by
  obtain ⟨_, _, _, hP, hminimal, _⟩ := ranged_table_facts h
  have h1 : Nat.clog 2 (max - min + 1) ≤ t.max_bits :=
    (Nat.le_pow_iff_clog_le (by norm_num)).mp hP
  have h2 : t.max_bits ≤ Nat.clog 2 (max - min + 1) :=
    hminimal _ (Nat.le_pow_clog (by norm_num) _)
  omega

lemma shiftLeft_one (a : Nat) : a <<< 1 = 2 * a := by
  simp [Nat.shiftLeft_eq, Nat.mul_comm]

lemma ranged_toTable_symbols (t : RangedIntegerHuffmanTable) :
    t.toTable.symbols_with_bits = t.symbols_with_bits := rfl

lemma ranged_toTable_get (t : RangedIntegerHuffmanTable) :
    t.toTable.get_symbol = t.get_symbol := rfl

/-- One unfolding of the `read_symbol` loop on a non-empty stream. -/
lemma read_symbol_loop_step {S : Type} (t : HuffmanTable S)
    (value base bits fuel : Nat) (b : Bool) (bs : List Bool) :
    read_symbol_loop t value base bits (fuel + 1) (b :: bs) =
      if (if b then (value <<< 1) + 1 else value <<< 1) - base <<< 1
          < t.symbols_with_bits bits then
        match t.get_symbol bits
            ((if b then (value <<< 1) + 1 else value <<< 1) - base <<< 1) with
        | .ok s => .ok (s, bs)
        | .error e => .error e
      else
        read_symbol_loop t (if b then (value <<< 1) + 1 else value <<< 1)
          (base <<< 1 + t.symbols_with_bits bits) (bits + 1) fuel bs := by
  simp only [read_symbol_loop, read_boolean, exceptOkBind]
  by_cases h : ((if b = true then (value <<< 1) + 1 else value <<< 1) - base <<< 1)
      < t.symbols_with_bits bits
  · rw [if_pos h, if_pos h]
    cases t.get_symbol bits
        ((if b = true then (value <<< 1) + 1 else value <<< 1) - base <<< 1) <;> rfl
  · rw [if_neg h, if_neg h]

/-- C9: on a ranged table built from `min ≤ max`, `read_symbol` always
terminates, consuming at most `max_bits = ⌈log₂ (max - min + 1)⌉` bits,
whatever the bit values are; with `min = max` it consumes no bits. -/
theorem ranged_read_symbol_terminates (min max fuel : Nat) (bs : List Bool)
    (t : RangedIntegerHuffmanTable)
    (hnew : RangedIntegerHuffmanTable.new min max = .ok t)
    (hfuel : t.max_bits ≤ fuel) (hlen : t.max_bits ≤ bs.length) :
    t.max_bits = Nat.clog 2 (max - min + 1) ∧
    ∃ s k, k ≤ t.max_bits ∧ read_symbol t.toTable fuel bs = .ok (s, bs.drop k) ∧
      (min = max → k = 0) := by
  refine ⟨ranged_max_bits_clog hnew, ?_⟩
  obtain ⟨hmin, hmax, hle, hP, hminimal, hlimit⟩ := ranged_table_facts hnew
  have hlim := ranged_limit_lt hnew
  by_cases hB0 : t.max_bits = 0
  · -- degenerate single-symbol alphabet: no bits consumed
    have hP1 : max - min + 1 = 1 := by
      rw [hB0] at hP
      norm_num at hP
      omega
    have hL0 : t.limit = 0 := by
      rw [hB0] at hlimit
      norm_num at hlimit
      omega
    have hs0 : t.symbols_with_bits 0 = 1 := by
      unfold RangedIntegerHuffmanTable.symbols_with_bits
      rw [if_pos hB0.symm]
      omega
    have hg : t.get_symbol 0 0 = .ok min := by
      unfold RangedIntegerHuffmanTable.get_symbol
      rw [if_pos hB0.symm, hmin, hL0]
      norm_num
    refine ⟨min, 0, by omega, ?_, fun _ => rfl⟩
    unfold read_symbol
    rw [ranged_toTable_symbols, ranged_toTable_get, hs0]
    rw [if_pos (by norm_num)]
    rw [hg]
    simp [exceptOkBind, pure, Except.pure]
  by_cases hB1 : t.max_bits = 1
  · -- a 2-symbol alphabet: exactly one bit
    have hP2 : max - min + 1 = 2 := by
      have h1 : ¬ (max - min + 1 ≤ 2 ^ 0) := by
        intro hc
        have := hminimal 0 hc
        omega
      rw [hB1] at hP
      norm_num at hP h1
      omega
    have hL0 : t.limit = 0 := by
      rw [hB1] at hlimit
      norm_num at hlimit
      omega
    have hs0 : t.symbols_with_bits 0 = 0 := by
      unfold RangedIntegerHuffmanTable.symbols_with_bits
      rw [if_neg (by omega), if_pos (by omega)]
      exact hL0
    have hpre : read_symbol t.toTable fuel bs = read_symbol_loop t.toTable 0 0 1 fuel bs := by
      unfold read_symbol
      rw [ranged_toTable_symbols, hs0]
      rw [if_neg (by norm_num)]
    cases bs with
    | nil =>
      exfalso
      rw [hB1] at hlen
      simp at hlen
    | cons b1 bs2 =>
      cases fuel with
      | zero => exfalso; omega
      | succ f1 =>
        set v2 := if b1 = true then (0 : Nat) <<< 1 + 1 else (0 : Nat) <<< 1 with hv2def
        have hv2lt : v2 < 2 := by
          rw [hv2def]; cases b1 <;> simp [shiftLeft_one]
        have hstep := read_symbol_loop_step t.toTable 0 0 1 f1 b1 bs2
        rw [← hv2def, Nat.zero_shiftLeft, Nat.sub_zero] at hstep
        have hs1 : t.symbols_with_bits 1 = 2 := by
          unfold RangedIntegerHuffmanTable.symbols_with_bits
          rw [if_pos (by omega)]
          omega
        rw [ranged_toTable_symbols, ranged_toTable_get, hs1] at hstep
        rw [if_pos (by omega)] at hstep
        have hg : t.get_symbol 1 v2 = .ok (v2 + min) := by
          unfold RangedIntegerHuffmanTable.get_symbol
          rw [if_pos (by omega : (1 : Nat) = t.max_bits), hmin, hL0]
          norm_num
        rw [hg] at hstep
        have hstep' : read_symbol_loop t.toTable 0 0 1 (f1 + 1) (b1 :: bs2) =
            .ok (v2 + min, bs2) := by rw [hstep]
        refine ⟨v2 + min, 1, by omega, ?_, by intro h; omega⟩
        rw [hpre, hstep']
        simp
  · -- max_bits ≥ 2
    have hB2 : 2 ≤ t.max_bits := by omega
    have hk0 : min = max → False := by
      intro h
      have h1 : max - min + 1 ≤ 2 ^ 0 := by
        rw [pow_zero]
        omega
      have := hminimal 0 h1
      omega
    have hs0 : t.symbols_with_bits 0 = 0 := by
      unfold RangedIntegerHuffmanTable.symbols_with_bits
      rw [if_neg (by omega), if_neg (by omega)]
    have hsB1 : t.symbols_with_bits (t.max_bits - 1) = t.limit := by
      unfold RangedIntegerHuffmanTable.symbols_with_bits
      rw [if_neg (by omega), if_pos rfl]
    have hsB : t.symbols_with_bits t.max_bits = max - min + 1 - t.limit := by
      unfold RangedIntegerHuffmanTable.symbols_with_bits
      rw [if_pos rfl, hmin, hmax]
    have hpre : read_symbol t.toTable fuel bs = read_symbol_loop t.toTable 0 0 1 fuel bs := by
      unfold read_symbol
      rw [ranged_toTable_symbols, hs0]
      rw [if_neg (by norm_num)]
    have hzero : ∀ j, 1 ≤ j → j < 1 + (t.max_bits - 2) →
        t.toTable.symbols_with_bits j = 0 := by
      intro j h1 h2
      show t.symbols_with_bits j = 0
      unfold RangedIntegerHuffmanTable.symbols_with_bits
      rw [if_neg (by omega), if_neg (by omega)]
    have hb1e : 1 + (t.max_bits - 2) = t.max_bits - 1 := by omega
    obtain ⟨f1, hf1⟩ : ∃ f1, fuel - (t.max_bits - 2) = f1 + 1 :=
      ⟨fuel - (t.max_bits - 2) - 1, by omega⟩
    have hf1b : 1 ≤ f1 := by omega
    set v1 := bits_value 0 (List.take (t.max_bits - 2) bs) with hv1def
    have hv1lt : v1 < 2 ^ (t.max_bits - 2) := by
      rw [hv1def]
      have h := bits_value_lt (List.take (t.max_bits - 2) bs) 0
      rw [List.length_take, min_eq_left (by omega : t.max_bits - 2 ≤ bs.length)] at h
      simpa using h
    have hpow1 : 2 ^ (t.max_bits - 1) = 2 ^ (t.max_bits - 2) + 2 ^ (t.max_bits - 2) := by
      have h := Nat.two_pow_succ (t.max_bits - 2)
      rw [show t.max_bits - 2 + 1 = t.max_bits - 1 by omega] at h
      exact h
    have hpow2 : 2 ^ t.max_bits = 2 ^ (t.max_bits - 1) + 2 ^ (t.max_bits - 1) := by
      have h := Nat.two_pow_succ (t.max_bits - 1)
      rw [show t.max_bits - 1 + 1 = t.max_bits by omega] at h
      exact h
    cases hbs1 : List.drop (t.max_bits - 2) bs with
    | nil =>
      exfalso
      have h := List.length_drop (t.max_bits - 2) bs
      rw [hbs1] at h
      simp at h
      omega
    | cons b1 bs2 =>
      have hbs2 : bs2 = List.drop (t.max_bits - 1) bs := by
        have h := congrArg (List.drop 1) hbs1
        rw [List.drop_drop] at h
        simp only [List.drop_succ_cons, List.drop_zero] at h
        rw [show t.max_bits - 2 + 1 = t.max_bits - 1 by omega] at h
        exact h.symm
      have hskip2 : read_symbol_loop t.toTable 0 0 1 fuel bs =
          read_symbol_loop t.toTable v1 0 (t.max_bits - 1) (f1 + 1) (b1 :: bs2) := by
        have h := read_symbol_loop_skip t.toTable (t.max_bits - 2) fuel 0 1 bs hzero
          (by omega) (by omega)
        rw [hb1e, hf1, hbs1, ← hv1def] at h
        exact h
      set v2 := if b1 = true then v1 <<< 1 + 1 else v1 <<< 1 with hv2def
      have hv2a : v2 ≤ 2 * v1 + 1 := by
        rw [hv2def]; cases b1 <;> simp [shiftLeft_one]
      have hv2b : 2 * v1 ≤ v2 := by
        rw [hv2def]; cases b1 <;> simp [shiftLeft_one]
      have hstep1 := read_symbol_loop_step t.toTable v1 0 (t.max_bits - 1) f1 b1 bs2
      rw [← hv2def, Nat.zero_shiftLeft, Nat.sub_zero, Nat.zero_add] at hstep1
      rw [ranged_toTable_symbols, ranged_toTable_get, hsB1] at hstep1
      rw [show t.max_bits - 1 + 1 = t.max_bits by omega] at hstep1
      by_cases hcase : v2 < t.limit
      · rw [if_pos hcase] at hstep1
        have hg : t.get_symbol (t.max_bits - 1) v2 = .ok (v2 + min) := by
          unfold RangedIntegerHuffmanTable.get_symbol
          rw [if_neg (by omega), if_pos rfl, hmin]
        rw [hg] at hstep1
        have hstep1' : read_symbol_loop t.toTable v1 0 (t.max_bits - 1) (f1 + 1) (b1 :: bs2) =
            .ok (v2 + min, bs2) := by rw [hstep1]
        refine ⟨v2 + min, t.max_bits - 1, by omega, ?_, fun h => (hk0 h).elim⟩
        rw [hpre, hskip2, hstep1', hbs2]
      · rw [if_neg hcase] at hstep1
        obtain ⟨f2, hf2⟩ : ∃ f2, f1 = f2 + 1 := ⟨f1 - 1, by omega⟩
        cases hbs2c : bs2 with
        | nil =>
          exfalso
          have hl2 : bs2.length = bs.length - (t.max_bits - 1) := by
            rw [hbs2, List.length_drop]
          rw [hbs2c] at hl2
          simp at hl2
          omega
        | cons b2 bs3 =>
          set v3 := if b2 = true then v2 <<< 1 + 1 else v2 <<< 1 with hv3def
          have hv3a : v3 ≤ 2 * v2 + 1 := by
            rw [hv3def]; cases b2 <;> simp [shiftLeft_one]
          have hv3b : 2 * v2 ≤ v3 := by
            rw [hv3def]; cases b2 <;> simp [shiftLeft_one]
          have hstep2 := read_symbol_loop_step t.toTable v2 t.limit t.max_bits f2 b2 bs3
          rw [← hv3def, shiftLeft_one t.limit] at hstep2
          rw [ranged_toTable_symbols, ranged_toTable_get, hsB] at hstep2
          rw [if_pos (by omega)] at hstep2
          have hgB : t.get_symbol t.max_bits (v3 - 2 * t.limit) =
              .ok (v3 - 2 * t.limit + t.limit + min) := by
            unfold RangedIntegerHuffmanTable.get_symbol
            rw [if_pos rfl, hmin]
          rw [hgB] at hstep2
          have hstep2' : read_symbol_loop t.toTable v2 t.limit t.max_bits (f2 + 1) (b2 :: bs3) =
              .ok (v3 - 2 * t.limit + t.limit + min, bs3) := by rw [hstep2]
          have hbs3 : bs3 = List.drop t.max_bits bs := by
            have h := congrArg (List.drop 1) hbs2c
            rw [hbs2, List.drop_drop] at h
            simp only [List.drop_succ_cons, List.drop_zero] at h
            rw [show t.max_bits - 1 + 1 = t.max_bits by omega] at h
            exact h.symm
          refine ⟨v3 - 2 * t.limit + t.limit + min, t.max_bits, Nat.le_refl _, ?_,
            fun h => (hk0 h).elim⟩
          rw [hpre, hskip2, hstep1, hf2, hbs2c, hstep2', hbs3]

/-- Witness for C9 at `min = 3`, `max = 7`, three bits `110`. -/
theorem ranged_read_symbol_terminates_witness :
    RangedIntegerHuffmanTable.new 3 7 = .ok ⟨3, 7, 3, 3⟩ ∧
    ((RangedIntegerHuffmanTable.mk 3 7 3 3).max_bits = Nat.clog 2 (7 - 3 + 1) ∧
     ∃ s k, k ≤ (RangedIntegerHuffmanTable.mk 3 7 3 3).max_bits ∧
       read_symbol (RangedIntegerHuffmanTable.mk 3 7 3 3).toTable 3 [true, true, false] =
         .ok (s, List.drop k [true, true, false]) ∧
       ((3 : Nat) = 7 → k = 0)) :=
  ⟨rfl, ranged_read_symbol_terminates 3 7 3 [true, true, false] ⟨3, 7, 3, 3⟩ rfl
    (by norm_num) (by norm_num)⟩

/-! ## Languages (sdb.rs) -/

/-- `LanguageCode` (sdb.rs:7-9): a two-letter code packed into `a..z`
base-26 (`u16`). -/
structure LanguageCode where
  code : Nat
deriving DecidableEq, Repr

/-- `LanguageCode::new` (sdb.rs:11-21): panics ("Invalid language code")
when `code ≥ 26 * 26`; the `u16` conversion afterwards always succeeds
for `code < 676`. -/
def LanguageCode.new (code : Nat) : Except ReadError LanguageCode :=
  if code ≥ 26 * 26 then .error .invalidLanguageCode
  else .ok ⟨code⟩

/-- `Language` (sdb.rs:30-33); named `SdbLanguage` here because Mathlib
already has a `Language`. -/
structure SdbLanguage where
  code : LanguageCode
  number_of_alphabets : Nat
deriving DecidableEq, Repr

/-- The `for _ in 0..language_count` loop of `SdbReader::read_languages`
(sdb.rs:144-155), carrying `first_valid_lang_code` and the vector built
so far. -/
def read_languages_loop (fuel : Nat) :
    Nat → Nat → List SdbLanguage → List Bool →
    Except ReadError (List SdbLanguage × List Bool)
  | 0, _, acc, bs => .ok (acc, bs)
  | count + 1, first_valid_lang_code, acc, bs => do
    let t ← RangedIntegerHuffmanTable.new first_valid_lang_code (26 * 26 - 1)
    let (raw_lang_code, bs) ← read_symbol t.toTable fuel bs
    let code ← LanguageCode.new raw_lang_code
    let (number_of_alphabets, bs) ← read_symbol (naturalNumberHuffmanTable 2) fuel bs
    read_languages_loop fuel count (raw_lang_code + 1)
      (acc ++ [⟨code, number_of_alphabets⟩]) bs

/-- `SdbReader::read_languages` (sdb.rs:138-158); the language count comes
from the alignment-8 natural table, each code from
`RangedInteger(first_valid, 26*26-1)`, each alphabet count from the
alignment-2 natural table. -/
def read_languages (fuel : Nat) (bs : List Bool) :
    Except ReadError (List SdbLanguage × List Bool) := do
  let (language_count, bs) ← read_symbol (naturalNumberHuffmanTable 8) fuel bs
  read_languages_loop fuel language_count 0 [] bs

lemma ranged_new_error {a b : Nat} {r : ReadError}
    (h : RangedIntegerHuffmanTable.new a b = .error r) : r = .invalidRange := by
  unfold RangedIntegerHuffmanTable.new at h
  split at h
  · exact (((Except.error.injEq _ _).mp h)).symm
  · simp at h

lemma ranged_get_symbol_error {t : RangedIntegerHuffmanTable} {b i : Nat}
    {r : ReadError} (h : t.get_symbol b i = .error r) :
    r = .invalidNumberOfBits := by
  unfold RangedIntegerHuffmanTable.get_symbol at h
  split at h
  · simp at h
  · split at h
    · simp at h
    · exact (((Except.error.injEq _ _).mp h)).symm

lemma natural_get_symbol_error {alignment b i : Nat} {r : ReadError}
    (h : natural_get_symbol alignment b i = .error r) : r = .invalidSymbol := by
  unfold natural_get_symbol at h
  split at h
  · exact (((Except.error.injEq _ _).mp h)).symm
  · simp at h

lemma read_symbol_ranged_error {t : RangedIntegerHuffmanTable} {fuel : Nat}
    {bs : List Bool} {r : ReadError}
    (h : read_symbol t.toTable fuel bs = .error r) :
    r = .fuelExhausted ∨ r = .unexpectedEndOfFile ∨ r = .invalidNumberOfBits := by
  rcases read_symbol_error _ _ _ _ h with h1 | h1 | ⟨b, i, _, hg⟩
  · exact Or.inl h1
  · exact Or.inr (Or.inl h1)
  · exact Or.inr (Or.inr (ranged_get_symbol_error hg))

lemma read_symbol_natural_error {alignment fuel : Nat} {bs : List Bool}
    {r : ReadError}
    (h : read_symbol (naturalNumberHuffmanTable alignment) fuel bs = .error r) :
    r = .fuelExhausted ∨ r = .unexpectedEndOfFile ∨ r = .invalidSymbol := by
  rcases read_symbol_error _ _ _ _ h with h1 | h1 | ⟨b, i, _, hg⟩
  · exact Or.inl h1
  · exact Or.inr (Or.inl h1)
  · exact Or.inr (Or.inr (natural_get_symbol_error hg))

lemma read_languages_loop_res (fuel : Nat) :
    ∀ count first_valid acc bs,
    (∀ l ∈ acc, l.code.code ≤ 26 * 26 - 1) →
    match read_languages_loop fuel count first_valid acc bs with
    | .ok (langs, _) => ∀ l ∈ langs, l.code.code ≤ 26 * 26 - 1
    | .error r => r ≠ .invalidLanguageCode := by
  intro count
  induction count with
  | zero =>
    intro first_valid acc bs hacc
    exact hacc
  | succ count ih =>
    intro first_valid acc bs hacc
    unfold read_languages_loop
    cases hnew : RangedIntegerHuffmanTable.new first_valid (26 * 26 - 1) with
    | error e =>
      rw [exceptErrorBind]
      have := ranged_new_error hnew
      simp [this]
    | ok t =>
      rw [exceptOkBind]
      cases hr1 : read_symbol t.toTable fuel bs with
      | error r1 =>
        rw [exceptErrorBind]
        rcases read_symbol_ranged_error hr1 with h | h | h <;> simp [h]
      | ok p1 =>
        obtain ⟨raw, bs1⟩ := p1
        rw [exceptOkBind]
        dsimp only
        have hraw : raw ≤ 26 * 26 - 1 :=
          (read_symbol_ranged_bounds hnew hr1).2
        have hcode : LanguageCode.new raw = .ok ⟨raw⟩ := by
          unfold LanguageCode.new
          rw [if_neg (by omega)]
        rw [hcode, exceptOkBind]
        cases hr2 : read_symbol (naturalNumberHuffmanTable 2) fuel bs1 with
        | error r2 =>
          rw [exceptErrorBind]
          rcases read_symbol_natural_error hr2 with h | h | h <;> simp [h]
        | ok p2 =>
          obtain ⟨noa, bs2⟩ := p2
          rw [exceptOkBind]
          dsimp only
          apply ih
          intro l hl
          rcases List.mem_append.mp hl with h | h
          · exact hacc l h
          · rw [List.mem_singleton.mp h]
            exact hraw

/-- C10: every raw language code decoded by `read_languages` comes from a
`RangedInteger(first_valid, 26*26-1)` table, so it is at most 675 and the
invalid-code branch of `LanguageCode::new` can never fire: a decode never
fails with the `invalidLanguageCode` error, and every decoded code is at
most `26*26 - 1`. -/
theorem read_languages_never_invalid_code (fuel : Nat) (bs : List Bool) :
    (∀ langs rest, read_languages fuel bs = .ok (langs, rest) →
      ∀ l ∈ langs, l.code.code ≤ 26 * 26 - 1) ∧
    (∀ r, read_languages fuel bs = .error r → r ≠ .invalidLanguageCode) := by
  have hmain : match read_languages fuel bs with
      | .ok (langs, _) => ∀ l ∈ langs, l.code.code ≤ 26 * 26 - 1
      | .error r => r ≠ .invalidLanguageCode := by
    unfold read_languages
    cases hr0 : read_symbol (naturalNumberHuffmanTable 8) fuel bs with
    | error r0 =>
      rw [exceptErrorBind]
      rcases read_symbol_natural_error hr0 with h | h | h <;> simp [h]
    | ok p0 =>
      obtain ⟨language_count, bs0⟩ := p0
      rw [exceptOkBind]
      dsimp only
      exact read_languages_loop_res fuel language_count 0 [] bs0 (by simp)
  constructor
  · intro langs rest hok
    rw [hok] at hmain
    exact hmain
  · intro r herr
    rw [herr] at hmain
    exact hmain

/-- Witness for C10 on the empty stream (which fails with an end-of-file
error, not the language-code error). -/
theorem read_languages_never_invalid_code_witness :
    (∀ langs rest, read_languages 8 [] = .ok (langs, rest) →
      ∀ l ∈ langs, l.code.code ≤ 26 * 26 - 1) ∧
    (∀ r, read_languages 8 [] = .error r → r ≠ .invalidLanguageCode) :=
  read_languages_never_invalid_code 8 []

/-! ## The file preamble (file_utils.rs, main.rs) -/

/-- `file_utils::read_u8` (file_utils.rs:16-24) over the byte list. -/
def read_u8 : List Nat → Except ReadError (Nat × List Nat)
  | [] => .error .unexpectedEndOfFile
  | b :: rest => .ok (b, rest)

/-- `file_utils::assert_next_is_same_u8` (file_utils.rs:26-38): reads a
byte and compares; on mismatch the error message carries the found byte
and the expected byte. -/
def assert_next_is_same_u8 (bytes : List Nat) (value : Nat) :
    Except ReadError (Bool × List Nat) :=
  match read_u8 bytes with
  | .error e => .error e
  | .ok (x, rest) =>
    if x = value then .ok (true, rest)
    else .error (.unexpectedCharacter x value)

/-- `file_utils::assert_next_is_same_text` (file_utils.rs:40-46). -/
def assert_next_is_same_text : List Nat → List Nat → Except ReadError (Bool × List Nat)
  | bytes, [] => .ok (true, bytes)
  | bytes, e :: rest => do
    let (_, bytes) ← assert_next_is_same_u8 bytes e
    assert_next_is_same_text bytes rest

/-- The magic preamble `"SDB\x01"` checked by `main` (main.rs:319). -/
def sdb_magic : List Nat := [83, 68, 66, 1]

/-- C7 counterexample: the error of a magic mismatch does not carry the
mismatch position.  The inputs `S D B 0x02` and `S D B 0x03` both
mismatch at position 3; were the error `UnexpectedByte(position)` as the
claim states, both would report the same error, but the code produces two
different errors, each recording the found and expected byte values (and
no position). -/
theorem magic_error_counterexample :
    assert_next_is_same_text [83, 68, 66, 2] sdb_magic =
      .error (.unexpectedCharacter 2 1) ∧
    assert_next_is_same_text [83, 68, 66, 3] sdb_magic =
      .error (.unexpectedCharacter 3 1) ∧
    ReadError.unexpectedCharacter 2 1 ≠ ReadError.unexpectedCharacter 3 1 :=
  ⟨rfl, rfl, by decide⟩

/-- C7 amended: a mismatch in the four magic bytes fails with the
unexpected-character error carrying the found byte and the expected byte
(the position is recoverable only from which expected byte is named); for
`S D B 0x02` the first mismatch is at position 3 and the error records
found `0x02`, expected `0x01`. -/
theorem magic_mismatch_error (k : Nat) (hk : k < 4) (found : Nat)
    (tail : List Nat) (hne : found ≠ sdb_magic.getD k 0) :
    assert_next_is_same_text (sdb_magic.take k ++ found :: tail) sdb_magic =
      .error (.unexpectedCharacter found (sdb_magic.getD k 0)) := by
  interval_cases k <;>
    simp_all [sdb_magic, assert_next_is_same_text, assert_next_is_same_u8,
      read_u8, exceptOkBind, exceptErrorBind]

/-- Witness for the amended C7: input `S D B 0x02`. -/
theorem magic_mismatch_error_witness :
    assert_next_is_same_text (sdb_magic.take 3 ++ 2 :: []) sdb_magic =
      .error (.unexpectedCharacter 2 (sdb_magic.getD 3 0)) :=
  magic_mismatch_error 3 (by norm_num) 2 [] (by decide)

/-! ## Reading a DefinedHuffmanTable (huffman.rs read_table) -/

/-- `InputBitStream::read_diff_u32` (huffman.rs:55-57). -/
def read_diff_u32 (t : HuffmanTable Nat) (fuel : Nat) (previous : Nat)
    (bs : List Bool) : Except ReadError (Nat × List Bool) := do
  let (s, bs) ← read_symbol t fuel bs
  pure (previous + s + 1, bs)

/-- `InputBitStream::read_diff_i32` (huffman.rs:59-64); the
`i32::try_from(u32)` panics ("Out of range") for symbols above
`i32::MAX`. -/
def read_diff_i32 (t : HuffmanTable Nat) (fuel : Nat) (previous : Int)
    (bs : List Bool) : Except ReadError (Int × List Bool) := do
  let (s, bs) ← read_symbol t fuel bs
  if s < 2 ^ 31 then pure (previous + s + 1, bs)
  else .error .valueOutOfRange

/-- The level-length loop of `read_table` (huffman.rs:81-89): starting at
`max = 1`, read a length from `RangedInteger(0, max)` and update
`max = (max - length) * 2` until `max = 0`.  The first argument is the
fuel passed to each `read_symbol`; the loop itself also consumes fuel
because nothing in the arithmetic alone guarantees termination. -/
def read_level_lengths (fuel : Nat) :
    Nat → Nat → List Bool → Except ReadError (List Nat × List Bool)
  | 0, _, _ => .error .fuelExhausted
  | lfuel + 1, max, bs =>
    if max > 0 then do
      let t ← RangedIntegerHuffmanTable.new 0 max
      let (level_length, bs) ← read_symbol t.toTable fuel bs
      let (rest, bs) ← read_level_lengths fuel lfuel ((max - level_length) <<< 1) bs
      pure (level_length :: rest, bs)
    else .ok ([], bs)

/-- The `for _ in 1..level_length` diff loop of `read_table`
(huffman.rs:104-107), pushing each element onto `symbols`. -/
def read_table_diffs {S : Type}
    (diff_supplier : S → List Bool → Except ReadError (S × List Bool)) :
    Nat → S → List S → List Bool → Except ReadError (List S × List Bool)
  | 0, _, symbols, bs => .ok (symbols, bs)
  | n + 1, element, symbols, bs => do
    let (element2, bs) ← diff_supplier element bs
    read_table_diffs diff_supplier n element2 (symbols ++ [element2]) bs

/-- The per-level loop of `read_table` (huffman.rs:94-109): before every
level except the first, push `symbols.len()` onto `level_indexes`; for a
non-empty level read one element with the supplier and the rest with the
diff supplier. -/
def read_table_levels {S : Type}
    (supplier : List Bool → Except ReadError (S × List Bool))
    (diff_supplier : S → List Bool → Except ReadError (S × List Bool)) :
    List Nat → Bool → List Nat → List S → List Bool →
    Except ReadError ((List Nat × List S) × List Bool)
  | [], _, level_indexes, symbols, bs => .ok ((level_indexes, symbols), bs)
  | level_length :: rest, first, level_indexes, symbols, bs =>
    let level_indexes :=
      if first then level_indexes else level_indexes ++ [symbols.length]
    if level_length > 0 then do
      let (element, bs) ← supplier bs
      let (symbols, bs) ← read_table_diffs diff_supplier (level_length - 1)
        element (symbols ++ [element]) bs
      read_table_levels supplier diff_supplier rest false level_indexes symbols bs
    else
      read_table_levels supplier diff_supplier rest false level_indexes symbols bs

/-- `InputBitStream::read_table` (huffman.rs:80-115).  The Rust suppliers
take the stream and a table; here the tables are baked into the supplier
closures. -/
def read_table {S : Type}
    (supplier : List Bool → Except ReadError (S × List Bool))
    (diff_supplier : S → List Bool → Except ReadError (S × List Bool))
    (fuel : Nat) (bs : List Bool) :
    Except ReadError (DefinedHuffmanTable S × List Bool) := do
  let (level_lengths, bs) ← read_level_lengths fuel fuel 1 bs
  let ((level_indexes, symbols), bs) ←
    read_table_levels supplier diff_supplier level_lengths true [] [] bs
  pure (⟨level_indexes, symbols⟩, bs)

/-- Modelled from the spec: "For each level with length `ℓ > 0`: read the
first symbol with `base_reader`; then `ℓ−1` further symbols with
`diff_reader(previous)`" — the chain of `ℓ−1` diff reads. -/
def read_diff_chain_spec {S : Type}
    (diff_supplier : S → List Bool → Except ReadError (S × List Bool)) :
    Nat → S → List Bool → Except ReadError (List S × List Bool)
  | 0, _, bs => .ok ([], bs)
  | n + 1, prev, bs => do
    let (x, bs) ← diff_supplier prev bs
    let (xs, bs) ← read_diff_chain_spec diff_supplier n x bs
    pure (x :: xs, bs)

/-- Modelled from the spec: the per-level symbol reading, returning the
symbols of all levels concatenated in reading order. -/
def read_level_symbols_spec {S : Type}
    (supplier : List Bool → Except ReadError (S × List Bool))
    (diff_supplier : S → List Bool → Except ReadError (S × List Bool)) :
    List Nat → List Bool → Except ReadError (List S × List Bool)
  | [], bs => .ok ([], bs)
  | l :: rest, bs =>
    if l > 0 then do
      let (x, bs) ← supplier bs
      let (xs, bs) ← read_diff_chain_spec diff_supplier (l - 1) x bs
      let (ys, bs) ← read_level_symbols_spec supplier diff_supplier rest bs
      pure ((x :: xs) ++ ys, bs)
    else read_level_symbols_spec supplier diff_supplier rest bs

/-- Modelled from the spec: the adaptive level-length protocol — starting
from `remaining`, every read length is at most `remaining`, `remaining`
becomes `(remaining - ℓ) * 2`, and the list ends exactly when `remaining`
reaches 0. -/
def level_lengths_protocol : Nat → List Nat → Prop
  | remaining, [] => remaining = 0
  | remaining, l :: rest =>
    0 < remaining ∧ l ≤ remaining ∧ level_lengths_protocol ((remaining - l) * 2) rest

lemma read_level_lengths_protocol (fuel : Nat) :
    ∀ lfuel max bs ls bs2,
    read_level_lengths fuel lfuel max bs = .ok (ls, bs2) →
    level_lengths_protocol max ls := by
  intro lfuel
  induction lfuel with
  | zero =>
    intro max bs ls bs2 h
    simp [read_level_lengths] at h
  | succ lfuel ih =>
    intro max bs ls bs2 h
    rw [read_level_lengths] at h
    split at h
    · rename_i hpos
      cases hnew : RangedIntegerHuffmanTable.new 0 max with
      | error e => rw [hnew, exceptErrorBind] at h; exact absurd h (by simp)
      | ok t =>
        rw [hnew, exceptOkBind] at h
        cases hr : read_symbol t.toTable fuel bs with
        | error r => rw [hr, exceptErrorBind] at h; exact absurd h (by simp)
        | ok p =>
          obtain ⟨l, bs1⟩ := p
          rw [hr, exceptOkBind] at h
          dsimp only at h
          cases hrec : read_level_lengths fuel lfuel ((max - l) <<< 1) bs1 with
          | error r => rw [hrec, exceptErrorBind] at h; exact absurd h (by simp)
          | ok q =>
            obtain ⟨rest, bs3⟩ := q
            rw [hrec, exceptOkBind] at h
            simp only [pure, Except.pure, Except.ok.injEq, Prod.mk.injEq] at h
            obtain ⟨h1, _⟩ := h
            rw [← h1]
            refine ⟨hpos, (read_symbol_ranged_bounds hnew hr).2, ?_⟩
            have hp := ih _ _ _ _ hrec
            rw [shiftLeft_one, Nat.mul_comm] at hp
            exact hp
    · rename_i hneg
      simp only [Except.ok.injEq, Prod.mk.injEq] at h
      obtain ⟨h1, _⟩ := h
      rw [← h1]
      show max = 0
      omega

lemma read_table_diffs_spec {S : Type}
    (dsup : S → List Bool → Except ReadError (S × List Bool)) :
    ∀ n element symbols bs res bs2,
    read_table_diffs dsup n element symbols bs = .ok (res, bs2) →
    ∃ xs, read_diff_chain_spec dsup n element bs = .ok (xs, bs2) ∧
      res = symbols ++ xs ∧ xs.length = n := by
  intro n
  induction n with
  | zero =>
    intro element symbols bs res bs2 h
    simp only [read_table_diffs, Except.ok.injEq, Prod.mk.injEq] at h
    obtain ⟨h1, h2⟩ := h
    exact ⟨[], by rw [read_diff_chain_spec, h2], by simp [h1.symm], rfl⟩
  | succ n ih =>
    intro element symbols bs res bs2 h
    rw [read_table_diffs] at h
    cases hd : dsup element bs with
    | error e => rw [hd, exceptErrorBind] at h; exact absurd h (by simp)
    | ok p =>
      obtain ⟨x, bs1⟩ := p
      rw [hd, exceptOkBind] at h
      dsimp only at h
      obtain ⟨xs, hchain, hres, hlen⟩ := ih _ _ _ _ _ h
      refine ⟨x :: xs, ?_, ?_, ?_⟩
      · rw [read_diff_chain_spec, hd, exceptOkBind]
        dsimp only
        rw [hchain, exceptOkBind]
        rfl
      · rw [hres, List.append_assoc]
        rfl
      · simp [hlen]

lemma read_table_levels_spec {S : Type}
    (sup : List Bool → Except ReadError (S × List Bool))
    (dsup : S → List Bool → Except ReadError (S × List Bool)) :
    ∀ lengths first idxs symbols bs out bs2,
    read_table_levels sup dsup lengths first idxs symbols bs = .ok (out, bs2) →
    ∃ new, read_level_symbols_spec sup dsup lengths bs = .ok (new, bs2) ∧
      out.2 = symbols ++ new ∧ new.length = lengths.sum := by
  intro lengths
  induction lengths with
  | nil =>
    intro first idxs symbols bs out bs2 h
    simp only [read_table_levels, Except.ok.injEq, Prod.mk.injEq] at h
    obtain ⟨h1, h2⟩ := h
    exact ⟨[], by rw [read_level_symbols_spec, h2], by simp [← h1], rfl⟩
  | cons l rest ih =>
    intro first idxs symbols bs out bs2 h
    rw [read_table_levels] at h
    by_cases hl : l > 0
    · rw [if_pos hl] at h
      cases hs : sup bs with
      | error e => rw [hs, exceptErrorBind] at h; exact absurd h (by simp)
      | ok p =>
        obtain ⟨x, bs1⟩ := p
        rw [hs, exceptOkBind] at h
        dsimp only at h
        cases hd : read_table_diffs dsup (l - 1) x (symbols ++ [x]) bs1 with
        | error e => rw [hd, exceptErrorBind] at h; exact absurd h (by simp)
        | ok q =>
          obtain ⟨symbols2, bs3⟩ := q
          rw [hd, exceptOkBind] at h
          dsimp only at h
          obtain ⟨xs, hchain, hsym2, hxslen⟩ := read_table_diffs_spec dsup _ _ _ _ _ _ hd
          obtain ⟨new2, hspec2, hout, hlen2⟩ := ih _ _ _ _ _ _ h
          refine ⟨(x :: xs) ++ new2, ?_, ?_, ?_⟩
          · rw [read_level_symbols_spec, if_pos hl, hs, exceptOkBind]
            dsimp only
            rw [hchain, exceptOkBind]
            dsimp only
            rw [hspec2, exceptOkBind]
            rfl
          · rw [hout, hsym2]
            simp
          · simp only [List.length_append, List.length_cons, hxslen, hlen2, List.sum_cons]
            omega
    · rw [if_neg hl] at h
      obtain ⟨new2, hspec2, hout, hlen2⟩ := ih _ _ _ _ _ _ h
      refine ⟨new2, ?_, hout, ?_⟩
      · rw [read_level_symbols_spec, if_neg hl]
        exact hspec2
      · simp only [hlen2, List.sum_cons]
        omega

/-- C3: a successful `read_table` decomposes into (1) reading the level
lengths by the adaptive protocol starting at `remaining = 1` (each length
is at most `remaining`, `remaining` becomes `(remaining - ℓ) * 2`, and
the list stops exactly at `remaining = 0`), and (2) reading, per level
with `ℓ > 0`, one base symbol and `ℓ - 1` diff symbols; the returned
table holds exactly those symbols in reading order, so its symbol count
is the sum of the level lengths. -/
theorem read_table_decomposition {S : Type}
    (sup : List Bool → Except ReadError (S × List Bool))
    (dsup : S → List Bool → Except ReadError (S × List Bool))
    (fuel : Nat) (bs : List Bool) (tbl : DefinedHuffmanTable S)
    (bs2 : List Bool)
    (h : read_table sup dsup fuel bs = .ok (tbl, bs2)) :
    ∃ lengths bs1, read_level_lengths fuel fuel 1 bs = .ok (lengths, bs1) ∧
      level_lengths_protocol 1 lengths ∧
      (∃ syms, read_level_symbols_spec sup dsup lengths bs1 = .ok (syms, bs2) ∧
        tbl.symbols = syms) ∧
      tbl.symbols.length = lengths.sum := by
  unfold read_table at h
  cases hl : read_level_lengths fuel fuel 1 bs with
  | error e => rw [hl, exceptErrorBind] at h; exact absurd h (by simp)
  | ok p =>
    obtain ⟨lengths, bs1⟩ := p
    rw [hl, exceptOkBind] at h
    dsimp only at h
    cases hlv : read_table_levels sup dsup lengths true [] [] bs1 with
    | error e => rw [hlv, exceptErrorBind] at h; exact absurd h (by simp)
    | ok q =>
      obtain ⟨⟨idxs, symbols⟩, bs3⟩ := q
      rw [hlv, exceptOkBind] at h
      simp only [pure, Except.pure, Except.ok.injEq, Prod.mk.injEq] at h
      obtain ⟨h1, h2⟩ := h
      obtain ⟨new, hspec, hout, hlen⟩ := read_table_levels_spec sup dsup _ _ _ _ _ _ _ hlv
      simp only at hout
      refine ⟨lengths, bs1, rfl, read_level_lengths_protocol fuel _ _ _ _ _ hl, ?_, ?_⟩
      · refine ⟨new, ?_, ?_⟩
        · rw [hspec, h2]
        · rw [← h1]
          simpa using hout
      · rw [← h1]
        simp only
        rw [hout]
        simpa using hlen

/-- Witness for C3: a concrete table read (levels `[0, 2]`, base reader
the alignment-8 integer table, diff reader the alignment-8 natural
table) that yields the two symbols `2, 3` at one bit. -/
theorem read_table_decomposition_witness :
    ∃ lengths bs1,
      read_level_lengths 64 64 1
        [false, true, true, false, false, false, false, false, false, true, false,
         false, false, false, false, false, false, false, false] = .ok (lengths, bs1) ∧
      level_lengths_protocol 1 lengths ∧
      (∃ syms,
        read_level_symbols_spec
          (fun bs => read_symbol (integerNumberHuffmanTable 8) 64 bs)
          (fun prev bs => read_diff_i32 (naturalNumberHuffmanTable 8) 64 prev bs)
          lengths bs1 = .ok (syms, []) ∧
        (DefinedHuffmanTable.mk [0] [(2 : Int), 3]).symbols = syms) ∧
      (DefinedHuffmanTable.mk [0] [(2 : Int), 3]).symbols.length = lengths.sum :=
  read_table_decomposition
    (fun bs => read_symbol (integerNumberHuffmanTable 8) 64 bs)
    (fun prev bs => read_diff_i32 (naturalNumberHuffmanTable 8) 64 prev bs)
    64
    [false, true, true, false, false, false, false, false, false, true, false,
     false, false, false, false, false, false, false, false]
    ⟨[0], [(2 : Int), 3]⟩ [] rfl

/-! ## Acceptations (sdb.rs) -/

/-- `usize::try_from(i32).unwrap()`: the unwrap panics for negative
values; a non-negative `i32` always fits in `usize`. -/
def usize_from_i32 (i : Int) : Except ReadError Nat :=
  if i < 0 then .error .valueOutOfRange else .ok i.toNat

/-- An unsigned subtraction whose underflow is a (debug-build) panic. -/
def checked_sub (a b : Nat) : Except ReadError Nat :=
  if a < b then .error .arithUnderflow else .ok (a - b)

/-- `Acceptation` (sdb.rs:80-83); the correlation-array index is its raw
`usize`. -/
structure Acceptation where
  concept : Nat
  correlation_array_index : Nat
deriving DecidableEq, Repr

/-- The `for set_entry_index in 1..length` loop of
`SdbReader::read_acceptations` (sdb.rs:301-310): build
`RangedInteger(value + 1, correlation_array_count - length +
set_entry_index)`, read a symbol, and store `value + symbol + 1`.
The first argument of the recursion is the number of remaining
iterations (`length - set_entry_index`). -/
def read_acceptations_inner (fuel correlation_array_count length concept : Nat) :
    Nat → Nat → Nat → List Acceptation → List Bool →
    Except ReadError (List Acceptation × List Bool)
  | 0, _, _, acc, bs => .ok (acc, bs)
  | count + 1, set_entry_index, value, acc, bs => do
    let d1 ← checked_sub correlation_array_count length
    let t ← RangedIntegerHuffmanTable.new (value + 1) (d1 + set_entry_index)
    let (d, bs) ← read_symbol t.toTable fuel bs
    read_acceptations_inner fuel correlation_array_count length concept count
      (set_entry_index + 1) (value + d + 1)
      (acc ++ [⟨concept, value + d + 1⟩]) bs

/-- The `for _ in 0..number_of_entries` loop of
`SdbReader::read_acceptations` (sdb.rs:289-311). -/
def read_acceptations_loop (fuel : Nat) (set_length_table : HuffmanTable Int)
    (concept_table : HuffmanTable Nat) (correlation_array_count : Nat) :
    Nat → List Acceptation → List Bool →
    Except ReadError (List Acceptation × List Bool)
  | 0, acc, bs => .ok (acc, bs)
  | n + 1, acc, bs => do
    let (concept, bs) ← read_symbol concept_table fuel bs
    let (length_i32, bs) ← read_symbol set_length_table fuel bs
    let length ← usize_from_i32 length_i32
    let d1 ← checked_sub correlation_array_count length
    let t ← RangedIntegerHuffmanTable.new 0 d1
    let (value, bs) ← read_symbol t.toTable fuel bs
    let (acc2, bs) ← read_acceptations_inner fuel correlation_array_count length
      concept (length - 1) 1 value (acc ++ [⟨concept, value⟩]) bs
    read_acceptations_loop fuel set_length_table concept_table
      correlation_array_count n acc2 bs

/-- `SdbReader::read_acceptations` (sdb.rs:282-315): entry count from the
alignment-8 natural table; set-length table via `read_table` with the
alignment-8 integer table as base reader and the alignment-8 natural
table as diff reader; concept table `RangedInteger(min_valid_concept,
max_valid_concept)`. -/
def read_acceptations
    (fuel min_valid_concept max_valid_concept correlation_array_count : Nat)
    (bs : List Bool) : Except ReadError (List Acceptation × List Bool) := do
  let (number_of_entries, bs) ← read_symbol (naturalNumberHuffmanTable 8) fuel bs
  if number_of_entries > 0 then do
    let (set_length_table, bs) ← read_table
      (fun bs => read_symbol (integerNumberHuffmanTable 8) fuel bs)
      (fun prev bs => read_diff_i32 (naturalNumberHuffmanTable 8) fuel prev bs)
      fuel bs
    let concept_table ←
      RangedIntegerHuffmanTable.new min_valid_concept max_valid_concept
    read_acceptations_loop fuel set_length_table.toTable concept_table.toTable
      correlation_array_count number_of_entries [] bs
  else .ok ([], bs)

/-! ## Conversions (sdb.rs) -/

/-- `Conversion` (sdb.rs:59-63), alphabets and symbol-array indexes as
raw indexes. -/
structure Conversion where
  source : Nat
  target : Nat
  pairs : List (Nat × Nat)
deriving DecidableEq, Repr

/-- The pair loop of `SdbReader::read_conversions` (sdb.rs:189-198). -/
def read_conversion_pairs (fuel : Nat) (symbol_array_table : HuffmanTable Nat) :
    Nat → List (Nat × Nat) → List Bool →
    Except ReadError (List (Nat × Nat) × List Bool)
  | 0, pairs, bs => .ok (pairs, bs)
  | n + 1, pairs, bs => do
    let (source, bs) ← read_symbol symbol_array_table fuel bs
    let (target, bs) ← read_symbol symbol_array_table fuel bs
    read_conversion_pairs fuel symbol_array_table n (pairs ++ [(source, target)]) bs

/-- The `for _ in 0..number_of_conversions` loop of
`SdbReader::read_conversions` (sdb.rs:167-205), carrying
`min_source_alphabet` and `min_target_alphabet`. -/
def read_conversions_loop (fuel : Nat) (sat : HuffmanTable Nat)
    (max_valid_alphabet : Nat) :
    Nat → Nat → Nat → List Conversion → List Bool →
    Except ReadError (List Conversion × List Bool)
  | 0, _, _, acc, bs => .ok (acc, bs)
  | n + 1, min_source_alphabet, min_target_alphabet, acc, bs => do
    let t1 ← RangedIntegerHuffmanTable.new min_source_alphabet max_valid_alphabet
    let (source_alphabet_index, bs) ← read_symbol t1.toTable fuel bs
    let (min_source_alphabet, min_target_alphabet) :=
      if min_source_alphabet ≠ source_alphabet_index
      then (source_alphabet_index, 0)
      else (min_source_alphabet, min_target_alphabet)
    let t2 ← RangedIntegerHuffmanTable.new min_target_alphabet max_valid_alphabet
    let (target_alphabet_index, bs) ← read_symbol t2.toTable fuel bs
    let (pair_count, bs) ← read_symbol (naturalNumberHuffmanTable 8) fuel bs
    let (pairs, bs) ← read_conversion_pairs fuel sat pair_count [] bs
    read_conversions_loop fuel sat max_valid_alphabet n
      min_source_alphabet (target_alphabet_index + 1)
      (acc ++ [⟨source_alphabet_index, target_alphabet_index, pairs⟩]) bs

/-- `SdbReader::read_conversions` (sdb.rs:160-208): the conversion count
from the alignment-8 natural table, the symbol-array table
`RangedInteger(0, symbol_array_count - 1)` (the `- 1` underflows when
there are no symbol arrays, a panic), `max_valid_alphabet =
alphabet_count - 1` likewise. -/
def read_conversions (fuel alphabet_count symbol_array_count : Nat)
    (bs : List Bool) : Except ReadError (List Conversion × List Bool) := do
  let (number_of_conversions, bs) ← read_symbol (naturalNumberHuffmanTable 8) fuel bs
  let sac1 ← checked_sub symbol_array_count 1
  let symbol_array_table ← RangedIntegerHuffmanTable.new 0 sac1
  let max_valid_alphabet ← checked_sub alphabet_count 1
  read_conversions_loop fuel symbol_array_table.toTable max_valid_alphabet
    number_of_conversions 0 0 [] bs

/-- C4 counterexample: in the acceptation inner loop the stored index is
NOT the symbol δ read from the ranged table.  With
`correlation_array_count = 3`, `length = 2`, previous index 0, the loop
builds `RangedInteger(1, 2)`; on the one-bit stream `[0]` that table
yields δ = 1, yet the stored index is 2 = 0 + δ + 1, and a full
`read_acceptations` run on a 30-bit stream shows the decoded indexes
`[0, 2]`, not `[0, δ] = [0, 1]`. -/
theorem acceptation_index_not_absolute_counterexample :
    read_acceptations 64 1 1 3
      [false, false, false, false, false, false, false, true,
       false, true, true,
       false, false, false, false, false, false, true, false,
       false, false, false, false, false, false, false, false,
       false, false, false] =
      .ok ([⟨1, 0⟩, ⟨1, 2⟩], []) ∧
    RangedIntegerHuffmanTable.new (0 + 1) (3 - 2 + 1) = .ok ⟨1, 2, 1, 0⟩ ∧
    read_symbol (RangedIntegerHuffmanTable.mk 1 2 1 0).toTable 64 [false] =
      .ok (1, []) ∧
    read_acceptations_inner 64 3 2 1 1 1 0 [] [false] = .ok ([⟨1, 2⟩], []) ∧
    (2 : Nat) ≠ 1 :=
  ⟨rfl, rfl, rfl, rfl, by decide⟩

/-- C4 amended: for each subsequent entry `i = 1..length-1` the reader
builds `RangedInteger(prev_v + 1, N_ca - length + i)` and reads δ from
it, but the next stored correlation-array index is `prev_v + δ + 1`, not
δ; since the table forces `δ ≥ prev_v + 1`, the stored indexes strictly
increase. -/
theorem acceptation_inner_step (fuel N length concept count i value : Nat)
    (acc : List Acceptation) (bs bs1 : List Bool)
    (t : RangedIntegerHuffmanTable) (d : Nat)
    (hlen : length ≤ N)
    (hnew : RangedIntegerHuffmanTable.new (value + 1) (N - length + i) = .ok t)
    (hread : read_symbol t.toTable fuel bs = .ok (d, bs1)) :
    read_acceptations_inner fuel N length concept (count + 1) i value acc bs =
      read_acceptations_inner fuel N length concept count (i + 1) (value + d + 1)
        (acc ++ [⟨concept, value + d + 1⟩]) bs1 ∧
    value + 1 ≤ d ∧ value < value + d + 1 := by
  have hbounds := read_symbol_ranged_bounds hnew hread
  refine ⟨?_, hbounds.1, by omega⟩
  rw [read_acceptations_inner]
  have hsub : checked_sub N length = .ok (N - length) := by
    unfold checked_sub
    rw [if_neg (by omega)]
  rw [hsub, exceptOkBind, hnew, exceptOkBind, hread, exceptOkBind]

/-- Witness for the amended C4 at the counterexample's inputs. -/
theorem acceptation_inner_step_witness :
    (read_acceptations_inner 64 3 2 1 (0 + 1) 1 0 [] [false] =
      read_acceptations_inner 64 3 2 1 0 (1 + 1) (0 + 1 + 1)
        ([] ++ [⟨1, 0 + 1 + 1⟩]) [] ∧
     0 + 1 ≤ 1 ∧ 0 < 0 + 1 + 1) :=
  acceptation_inner_step 64 3 2 1 0 1 0 [] [false] [] ⟨1, 2, 1, 0⟩ 1
    (by norm_num) rfl rfl

/-- C5 counterexample: a group length of 0 read from the set-length table
is not fatal and still produces an acceptation row.  The 18-bit stream
encodes entry count 1, a set-length table whose only symbol is 0 at zero
bits, and one entry: its length decodes to 0, yet the decode succeeds and
emits the row `(concept 1, index 0)`. -/
theorem acceptation_zero_length_counterexample :
    read_table
      (fun bs => read_symbol (integerNumberHuffmanTable 8) 64 bs)
      (fun prev bs => read_diff_i32 (naturalNumberHuffmanTable 8) 64 prev bs)
      64 [true, false, false, false, false, false, false, false, false] =
      .ok (⟨[], [(0 : Int)]⟩, []) ∧
    read_symbol (DefinedHuffmanTable.mk ([] : List Nat) [(0 : Int)]).toTable 64 [] =
      .ok (0, []) ∧
    ¬ (0 < (0 : Int)) ∧
    read_acceptations 64 1 1 1
      [false, false, false, false, false, false, false, true,
       true,
       false, false, false, false, false, false, false, false,
       false] =
      .ok ([⟨1, 0⟩], []) :=
  ⟨rfl, rfl, by decide, rfl⟩

/-- C5 amended: of the non-positive group lengths only the negative ones
are fatal (the `usize` conversion panics); a zero length is accepted, the
entry still reads one correlation-array index from
`RangedInteger(0, N_ca)` and produces exactly one acceptation row before
the loop continues. -/
theorem acceptation_group_length_check (fuel N n : Nat)
    (slt : HuffmanTable Int) (ct : HuffmanTable Nat)
    (acc : List Acceptation) (bs bs1 bs2 : List Bool)
    (concept : Nat) (li : Int)
    (hc : read_symbol ct fuel bs = .ok (concept, bs1))
    (hl : read_symbol slt fuel bs1 = .ok (li, bs2)) :
    (li < 0 →
      read_acceptations_loop fuel slt ct N (n + 1) acc bs =
        .error .valueOutOfRange) ∧
    (li = 0 →
      read_acceptations_loop fuel slt ct N (n + 1) acc bs =
        (do
          let t ← RangedIntegerHuffmanTable.new 0 N
          let (value, bs3) ← read_symbol t.toTable fuel bs2
          read_acceptations_loop fuel slt ct N n
            (acc ++ [⟨concept, value⟩]) bs3)) := by
  constructor
  · intro hneg
    rw [read_acceptations_loop, hc, exceptOkBind]
    dsimp only
    rw [hl, exceptOkBind]
    dsimp only
    have hu : usize_from_i32 li = .error .valueOutOfRange := by
      unfold usize_from_i32
      rw [if_pos hneg]
    rw [hu, exceptErrorBind]
  · intro hzero
    subst hzero
    rw [read_acceptations_loop, hc, exceptOkBind]
    dsimp only
    rw [hl, exceptOkBind]
    dsimp only
    have hu : usize_from_i32 0 = .ok 0 := by
      unfold usize_from_i32
      rw [if_neg (by norm_num)]
      rfl
    rw [hu, exceptOkBind]
    have hs : checked_sub N 0 = .ok N := by
      unfold checked_sub
      rw [if_neg (by omega), Nat.sub_zero]
    rw [hs, exceptOkBind]
    rfl

/-- Witness for the amended C5: a constant-0 set-length table, the
one-concept table, one correlation array, one entry. -/
theorem acceptation_group_length_check_witness :
    ((0 : Int) < 0 →
      read_acceptations_loop 64
        (DefinedHuffmanTable.mk ([] : List Nat) [(0 : Int)]).toTable
        (RangedIntegerHuffmanTable.mk 1 1 0 0).toTable 1 (0 + 1) [] [false] =
        .error .valueOutOfRange) ∧
    ((0 : Int) = 0 →
      read_acceptations_loop 64
        (DefinedHuffmanTable.mk ([] : List Nat) [(0 : Int)]).toTable
        (RangedIntegerHuffmanTable.mk 1 1 0 0).toTable 1 (0 + 1) [] [false] =
        (do
          let t ← RangedIntegerHuffmanTable.new 0 1
          let (value, bs3) ←
            read_symbol t.toTable 64 [false]
          read_acceptations_loop 64
            (DefinedHuffmanTable.mk ([] : List Nat) [(0 : Int)]).toTable
            (RangedIntegerHuffmanTable.mk 1 1 0 0).toTable 1 0
            ([] ++ [⟨1, value⟩]) bs3)) :=
  acceptation_group_length_check 64 1 0
    (DefinedHuffmanTable.mk ([] : List Nat) [(0 : Int)]).toTable
    (RangedIntegerHuffmanTable.mk 1 1 0 0).toTable [] [false] [false] [false]
    1 0 rfl rfl

/-- C8 counterexample: `read_conversions` accepts a stream in which a
conversion has equal source and target alphabets.  With two alphabets and
one symbol array, the 18-bit stream (count 1, source bit 0, target bit 0,
pair count 0) decodes to the single conversion `(source 0, target 0)`. -/
theorem conversion_source_eq_target_counterexample :
    read_conversions 64 2 1
      [false, false, false, false, false, false, false, true,
       false, false,
       false, false, false, false, false, false, false, false] =
      .ok ([⟨0, 0, []⟩], []) ∧
    (Conversion.mk 0 0 []).source = (Conversion.mk 0 0 []).target :=
  ⟨rfl, rfl⟩

/-- The running ordering invariant of the conversion loop: every listed
conversion has `source ≥ min_source`, a conversion that repeats the
current `min_source` has `target ≥ min_target`, and the rest of the list
is ordered from `(source, target + 1)`. -/
def conversions_ordered_from : Nat → Nat → List Conversion → Prop
  | _, _, [] => True
  | min_s, min_t, c :: rest =>
    min_s ≤ c.source ∧ (c.source = min_s → min_t ≤ c.target) ∧
    conversions_ordered_from c.source (c.target + 1) rest

/-- Consecutive conversions are ordered: sources never decrease, and on a
repeated source the target strictly increases. -/
def conversions_chain : List Conversion → Prop
  | [] => True
  | [_] => True
  | c1 :: c2 :: rest =>
    (c1.source ≤ c2.source ∧ (c1.source = c2.source → c1.target < c2.target)) ∧
    conversions_chain (c2 :: rest)

lemma conversions_ordered_from_chain :
    ∀ (l : List Conversion) (min_s min_t : Nat),
    conversions_ordered_from min_s min_t l → conversions_chain l := by
  intro l
  induction l with
  | nil => intro _ _ _; trivial
  | cons c1 rest ih =>
    intro min_s min_t h
    cases rest with
    | nil => trivial
    | cons c2 rest2 =>
      obtain ⟨h1, h2, h3⟩ := h
      obtain ⟨h31, h32, h33⟩ := h3
      exact ⟨⟨h31, fun he => by have := h32 he.symm; omega⟩,
        ih _ _ ⟨h31, h32, h33⟩⟩

lemma read_conversions_loop_ordered (fuel : Nat) (sat : HuffmanTable Nat)
    (mva : Nat) :
    ∀ n min_s min_t acc bs out bs2,
    read_conversions_loop fuel sat mva n min_s min_t acc bs = .ok (out, bs2) →
    ∃ new, out = acc ++ new ∧ conversions_ordered_from min_s min_t new := by
  intro n
  induction n with
  | zero =>
    intro min_s min_t acc bs out bs2 h
    simp only [read_conversions_loop, Except.ok.injEq, Prod.mk.injEq] at h
    exact ⟨[], by simp [← h.1], trivial⟩
  | succ n ih =>
    intro min_s min_t acc bs out bs2 h
    rw [read_conversions_loop] at h
    cases ht1 : RangedIntegerHuffmanTable.new min_s mva with
    | error e => rw [ht1, exceptErrorBind] at h; exact absurd h (by simp)
    | ok t1 =>
      rw [ht1, exceptOkBind] at h
      cases hsrc : read_symbol t1.toTable fuel bs with
      | error e => rw [hsrc, exceptErrorBind] at h; exact absurd h (by simp)
      | ok p1 =>
        obtain ⟨src, bs1⟩ := p1
        rw [hsrc, exceptOkBind] at h
        dsimp only at h
        have hsrc_ge : min_s ≤ src := (read_symbol_ranged_bounds ht1 hsrc).1
        by_cases hne : min_s ≠ src
        · rw [if_pos hne] at h
          dsimp only at h
          cases ht2 : RangedIntegerHuffmanTable.new 0 mva with
          | error e => rw [ht2, exceptErrorBind] at h; exact absurd h (by simp)
          | ok t2 =>
            rw [ht2, exceptOkBind] at h
            cases htgt : read_symbol t2.toTable fuel bs1 with
            | error e => rw [htgt, exceptErrorBind] at h; exact absurd h (by simp)
            | ok p2 =>
              obtain ⟨tgt, bs2a⟩ := p2
              rw [htgt, exceptOkBind] at h
              dsimp only at h
              cases hpc : read_symbol (naturalNumberHuffmanTable 8) fuel bs2a with
              | error e => rw [hpc, exceptErrorBind] at h; exact absurd h (by simp)
              | ok p3 =>
                obtain ⟨pair_count, bs3⟩ := p3
                rw [hpc, exceptOkBind] at h
                dsimp only at h
                cases hps : read_conversion_pairs fuel sat pair_count [] bs3 with
                | error e => rw [hps, exceptErrorBind] at h; exact absurd h (by simp)
                | ok p4 =>
                  obtain ⟨pairs, bs4⟩ := p4
                  rw [hps, exceptOkBind] at h
                  dsimp only at h
                  obtain ⟨new2, hout, hord⟩ := ih _ _ _ _ _ _ h
                  refine ⟨⟨src, tgt, pairs⟩ :: new2, ?_, ?_⟩
                  · rw [hout, List.append_assoc]
                    rfl
                  · exact ⟨hsrc_ge, fun he => absurd he.symm hne, hord⟩
        · rw [if_neg hne] at h
          dsimp only at h
          cases ht2 : RangedIntegerHuffmanTable.new min_t mva with
          | error e => rw [ht2, exceptErrorBind] at h; exact absurd h (by simp)
          | ok t2 =>
            rw [ht2, exceptOkBind] at h
            cases htgt : read_symbol t2.toTable fuel bs1 with
            | error e => rw [htgt, exceptErrorBind] at h; exact absurd h (by simp)
            | ok p2 =>
              obtain ⟨tgt, bs2a⟩ := p2
              rw [htgt, exceptOkBind] at h
              dsimp only at h
              have htgt_ge : min_t ≤ tgt := (read_symbol_ranged_bounds ht2 htgt).1
              cases hpc : read_symbol (naturalNumberHuffmanTable 8) fuel bs2a with
              | error e => rw [hpc, exceptErrorBind] at h; exact absurd h (by simp)
              | ok p3 =>
                obtain ⟨pair_count, bs3⟩ := p3
                rw [hpc, exceptOkBind] at h
                dsimp only at h
                cases hps : read_conversion_pairs fuel sat pair_count [] bs3 with
                | error e => rw [hps, exceptErrorBind] at h; exact absurd h (by simp)
                | ok p4 =>
                  obtain ⟨pairs, bs4⟩ := p4
                  rw [hps, exceptOkBind] at h
                  dsimp only at h
                  obtain ⟨new2, hout, hord⟩ := ih _ _ _ _ _ _ h
                  push_neg at hne
                  refine ⟨⟨src, tgt, pairs⟩ :: new2, ?_, ?_⟩
                  · rw [hout, List.append_assoc]
                    rfl
                  · refine ⟨hsrc_ge, fun _ => htgt_ge, ?_⟩
                    show conversions_ordered_from src (tgt + 1) new2
                    rw [← hne]
                    exact hord

/-- C8 amended: `read_conversions` does not enforce
`source ≠ target` (see the counterexample), but it does enforce the
ordering the spec lists alongside it: in every successful decode
consecutive conversions have non-decreasing source alphabets and, when
the source repeats, strictly increasing target alphabets. -/
theorem read_conversions_ordered (fuel alphabet_count symbol_array_count : Nat)
    (bs bs2 : List Bool) (cs : List Conversion)
    (h : read_conversions fuel alphabet_count symbol_array_count bs = .ok (cs, bs2)) :
    conversions_chain cs := by
  unfold read_conversions at h
  cases hn : read_symbol (naturalNumberHuffmanTable 8) fuel bs with
  | error e => rw [hn, exceptErrorBind] at h; exact absurd h (by simp)
  | ok p =>
    obtain ⟨n, bs1⟩ := p
    rw [hn, exceptOkBind] at h
    dsimp only at h
    cases hs1 : checked_sub symbol_array_count 1 with
    | error e => rw [hs1, exceptErrorBind] at h; exact absurd h (by simp)
    | ok sac1 =>
      rw [hs1, exceptOkBind] at h
      cases hs2 : RangedIntegerHuffmanTable.new 0 sac1 with
      | error e => rw [hs2, exceptErrorBind] at h; exact absurd h (by simp)
      | ok sat =>
        rw [hs2, exceptOkBind] at h
        cases hs3 : checked_sub alphabet_count 1 with
        | error e => rw [hs3, exceptErrorBind] at h; exact absurd h (by simp)
        | ok mva =>
          rw [hs3, exceptOkBind] at h
          obtain ⟨new, hout, hord⟩ := read_conversions_loop_ordered fuel _ _ _ _ _ _ _ _ _ h
          rw [hout]
          simp only [List.nil_append]
          exact conversions_ordered_from_chain new 0 0 hord

/-- Witness for the amended C8: the counterexample's decode is (trivially)
ordered. -/
theorem read_conversions_ordered_witness :
    conversions_chain [⟨0, 0, []⟩] :=
  read_conversions_ordered 64 2 1
    [false, false, false, false, false, false, false, true,
     false, false,
     false, false, false, false, false, false, false, false]
    [] [⟨0, 0, []⟩] rfl
